import Mathlib

/-!
Verification development for the subgraph extraction engine of the
Risk_Agent_Frontend repository (`src/api_server.py`, `get_subgraph_data`,
lines 414-534).

The Python code works on JSON dictionaries.  We embed the values the
algorithm actually inspects: a node is a record with an optional `id`
field (`node.get('id')` yields `None` when the key is missing) plus an
opaque attribute bag; a link has optional `source` and `target` fields
plus an opaque attribute bag.  Python's `dict.get` returning `None` is
modelled by `Option String`; Python structural equality on dictionaries
(used by `link not in subgraph_links` and by `next(...)` lookups) is
modelled by decidable equality on the records.
-/

/-- An identifier value as the Python code sees it: `node.get('id')`,
`link.get('source')`, `link.get('target')` are either a string or `None`. -/
abbrev Ident := Option String

/-- A node record: the `id` field (possibly missing) and the remaining
opaque display attributes, modelled as an association list. -/
structure Node where
  id : Ident
  attrs : List (String × String)
deriving DecidableEq, Repr

/-- A link record: `source` and `target` fields (possibly missing, as
`dict.get` returns `None` for an absent key) and opaque attributes. -/
structure Link where
  source : Ident
  target : Ident
  attrs : List (String × String)
deriving DecidableEq, Repr

/-- Python truthiness of a node dictionary: an empty dict is falsy.
The modelled dict is empty exactly when the `id` field is absent and the
attribute bag is empty.  Used for `if neighbor_node:` (line 504). -/
def Node.truthy (n : Node) : Bool :=
  n.id.isSome || !n.attrs.isEmpty

/-- The adjacency entries a single link contributes for key `x`
(lines 472-482): `(target, link)` is appended to `adjacency[source]` and
`(source, link)` to `adjacency[target]`, in that order. -/
def linkEntries (l : Link) (x : Ident) : List (Ident × Link) :=
  (if l.source = x then [(l.target, l)] else []) ++
    (if l.target = x then [(l.source, l)] else [])

/-- `adjacency.get(x, [])` after the build loop of lines 472-482: for each
link, in list order, the entries it contributes to key `x`. -/
def adjEntries (fl : List Link) (x : Ident) : List (Ident × Link) :=
  fl.foldr (fun l acc => linkEntries l x ++ acc) []

/-- All identifiers occurring as a source or target of some link; used to
bound the breadth-first traversal (every enqueued identifier comes from an
adjacency entry, hence from this list). -/
def allIdents (fl : List Link) : List Ident :=
  fl.foldr (fun l acc => l.source :: l.target :: acc) []

/-- The mutable state of the traversal of lines 466-509: the pending BFS
queue (`deque` of `(node_id, current_degree)`), the visited set
(recorded in first-visit order), the insertion-ordered dictionary
`subgraph_nodes`, and the accepted link list `subgraph_links`. -/
structure BFSState where
  queue : List (Ident × Nat)
  visited : List Ident
  nodes : List (Ident × Node)
  links : List Link
deriving DecidableEq, Repr

/-- Lines 498-505: discover the neighbor if unvisited: mark it visited,
enqueue it at depth `d + 1`, and insert the first matching node object
into `subgraph_nodes` when it exists and is truthy (`if neighbor_node:`,
Python dict truthiness). -/
def discover (fn : List Node) (d : Nat) (s : BFSState) (nbr : Ident) :
    BFSState :=
  if nbr ∈ s.visited then s
  else
    let s' : BFSState :=
      { s with visited := s.visited ++ [nbr], queue := s.queue ++ [(nbr, d + 1)] }
    match fn.find? (fun n => n.id = nbr) with
    | some nd => if nd.truthy then { s' with nodes := s'.nodes ++ [(nbr, nd)] } else s'
    | none => s'

/-- Lines 507-509: append the link when the neighbor is a key of
`subgraph_nodes` and the link object is not already in `subgraph_links`. -/
def addLink (s : BFSState) (nbr : Ident) (link : Link) : BFSState :=
  if (s.nodes.any (fun p => p.1 = nbr)) ∧ link ∉ s.links then
    { s with links := s.links ++ [link] }
  else s

/-- Full body of the inner loop of lines 497-509. -/
def processNeighbor (fn : List Node) (d : Nat) (s : BFSState)
    (e : Ident × Link) : BFSState :=
  addLink (discover fn d s e.1) e.1 e.2

/-- `x` is a key of the `subgraph_nodes` dictionary. -/
def keysP (s : BFSState) (x : Ident) : Prop :=
  ∃ p ∈ s.nodes, p.1 = x

instance (s : BFSState) (x : Ident) : Decidable (keysP s x) :=
  List.decidableBEx _ s.nodes

/-- The neighbor-id lookup of line 503 followed by the truthiness test of
line 504 succeeds: the first node whose `id` equals `x` exists and is a
truthy (non-empty) dictionary. -/
def realB (fn : List Node) (x : Ident) : Bool :=
  match fn.find? (fun n => n.id = x) with
  | some nd => nd.truthy
  | none => false

/-- Expansion of a popped node `cur` at depth `d` (the body of the
`if current_degree < degree:` branch, lines 495-509): iterate
`processNeighbor` over `adjacency.get(cur, [])`. -/
def expand (fn : List Node) (fl : List Link) (d : Nat) (cur : Ident)
    (s : BFSState) : BFSState :=
  (adjEntries fl cur).foldl (fun t e => processNeighbor fn d t e) s

/-- Termination measure for the `while queue:` loop: identifiers from
`allIdents` not yet visited, plus the queue length.  Every loop iteration
strictly decreases it (the pop removes one entry; every enqueue marks a
previously unvisited identifier of `allIdents` visited). -/
def bfsMeasure (fl : List Link) (s : BFSState) : Nat :=
  ((allIdents fl).filter (fun x => decide (x ∉ s.visited))).length + s.queue.length

/-- The `while queue:` loop of lines 492-509, with explicit fuel.  Each
step pops the front of the queue and, when the popped depth is below the
degree bound, expands the popped node.  `bfsMeasure` fuel is always
sufficient (`bfsRun_queue_nil` below), so the fuelled run computes the
loop's true fixed point. -/
def bfsRun (fn : List Node) (fl : List Link) (deg : Nat) :
    Nat → BFSState → BFSState
  | 0, s => s
  | f + 1, s =>
    match s.queue with
    | [] => s
    | (cur, d) :: rest =>
      bfsRun fn fl deg f
        (if d < deg then expand fn fl d cur { s with queue := rest }
         else { s with queue := rest })

/-- The degree clamp of lines 428-433: any integer below 1 becomes 1. -/
def clampDeg (d : Int) : Nat :=
  (if d < 1 then 1 else d).toNat

/-- Initial traversal state (lines 486-490): the queue holds the center at
depth 0, the center is marked visited, and the center object is inserted
into `subgraph_nodes`. -/
def initState (c : String) (cObj : Node) : BFSState :=
  { queue := [(some c, 0)], visited := [some c],
    nodes := [(some c, cObj)], links := [] }

/-- The traversal state after the while loop finishes, for a graph whose
center lookup succeeds; for an absent center the state is irrelevant and
defined as empty. -/
def finalState (fn : List Node) (fl : List Link) (c : String) (d : Int) :
    BFSState :=
  match fn.find? (fun n => n.id = some c) with
  | some cObj =>
    bfsRun fn fl (clampDeg d) (bfsMeasure fl (initState c cObj)) (initState c cObj)
  | none => { queue := [], visited := [], nodes := [], links := [] }

/-- Failure taxonomy of the endpoint: empty `nodes`/`links` yields the
`Invalid graph data structure` response (line 453) and an absent center
yields the `not found in graph` response (line 463). -/
inductive ExtractError where
  | InvalidGraph : ExtractError
  | NotFound : String → ExtractError
deriving DecidableEq, Repr

/-- The HTTP status the route attaches to each failure:
400 at line 453, 404 at line 463. -/
def httpStatus : ExtractError → Nat
  | .InvalidGraph => 400
  | .NotFound _ => 404

/-- The successful response body of lines 515-526. -/
structure SubgraphResult where
  nodes : List Node
  links : List Link
  center_node : String
  degree : Int
  total_nodes : Nat
  total_links : Nat
  original_nodes : Nat
  original_links : Nat
deriving DecidableEq, Repr

/-- The subgraph extraction of lines 449-530: validate the graph, locate
the center node by exact identifier equality, run the bounded BFS, and
assemble the response. -/
def extract_subgraph (fn : List Node) (fl : List Link) (c : String)
    (d : Int) : Except ExtractError SubgraphResult :=
  if fn.isEmpty || fl.isEmpty then .error .InvalidGraph
  else
    match fn.find? (fun n => n.id = some c) with
    | none => .error (.NotFound c)
    | some _ =>
      let s := finalState fn fl c d
      .ok { nodes := s.nodes.map (fun p => p.2)
            links := s.links
            center_node := c
            degree := if d < 1 then 1 else d
            total_nodes := (s.nodes.map (fun p => p.2)).length
            total_links := s.links.length
            original_nodes := fn.length
            original_links := fl.length }

/-- Structural invariant of the traversal state: queue entries are
visited; the `subgraph_nodes` keys are exactly the visited identifiers
whose node lookup succeeds (and is truthy); every stored node object is
the first lookup result for its key; accepted links come from the full
link list and have both endpoints visited; the accepted link list has no
duplicates; the node keys form a subsequence of the visited list
(first-visit order); and the center entry stays in front. -/
def bfsInv (fn : List Node) (fl : List Link) (c : String) (cObj : Node)
    (s : BFSState) : Prop :=
  (∀ p ∈ s.queue, p.1 ∈ s.visited) ∧
    (∀ x, keysP s x ↔ x ∈ s.visited ∧ realB fn x = true) ∧
    (∀ p ∈ s.nodes, fn.find? (fun n => n.id = p.1) = some p.2) ∧
    (∀ l ∈ s.links, l ∈ fl ∧ l.source ∈ s.visited ∧ l.target ∈ s.visited) ∧
    s.links.Nodup ∧
    (s.nodes.map (fun p => p.1)).Sublist s.visited ∧
    (∃ r2, s.nodes = (some c, cObj) :: r2)

/-- The undirected adjacency relation induced by the link list: `x` and
`y` are linked when some link has them as its two endpoints, in either
orientation. -/
def linked (fl : List Link) (x y : Ident) : Prop :=
  ∃ l ∈ fl, (l.source = x ∧ l.target = y) ∨ (l.target = x ∧ l.source = y)

/-- Reachability from `c` within at most `n` hops in the undirected
adjacency relation induced by the link list. -/
inductive Reach (fl : List Link) (c : Ident) : Nat → Ident → Prop where
  | zero : Reach fl c 0 c
  | succ : ∀ {n x}, Reach fl c n x → Reach fl c (n + 1) x
  | step : ∀ {n x y}, Reach fl c n x → linked fl x y → Reach fl c (n + 1) y

/-- Soundness invariant of the traversal: every queued identifier is
reachable within its recorded depth, depths never exceed the bound, and
every visited identifier is reachable within the bound. -/
def sInv (fl : List Link) (c : Ident) (deg : Nat) (s : BFSState) : Prop :=
  (∀ p ∈ s.queue, Reach fl c p.2 p.1 ∧ p.2 ≤ deg) ∧
    (∀ x ∈ s.visited, Reach fl c deg x)

/-- Completeness invariant of the traversal: the queue splits into a
front segment of the current level `d` and a back segment of level
`d + 1`; everything reachable within `d` hops is visited; while below the
bound, every visited identifier is either still queued or fully expanded;
back-segment identifiers are new (not reachable within `d` hops); and the
back segment is only populated below the bound. -/
def cInv (fl : List Link) (c : Ident) (deg : Nat) (s : BFSState) : Prop :=
  ∃ d A B, s.queue = A ++ B ∧
    (∀ p ∈ A, p.2 = d) ∧
    (∀ p ∈ B, p.2 = d + 1) ∧
    (∀ x, Reach fl c d x → x ∈ s.visited) ∧
    (d < deg → ∀ x ∈ s.visited,
      (∃ p ∈ s.queue, p.1 = x) ∨ (∀ y, linked fl x y → y ∈ s.visited)) ∧
    (∀ p ∈ B, ¬ Reach fl c d p.1) ∧
    (B ≠ [] → d < deg)

/-! ### Basic facts about reachability and adjacency -/

theorem Reach.self (fl : List Link) (c : Ident) : ∀ n, Reach fl c n c
  | 0 => .zero
  | n + 1 => .succ (Reach.self fl c n)

theorem Reach.mono {fl : List Link} {c : Ident} {n m : Nat} {x : Ident}
    (h : Reach fl c n x) (hnm : n ≤ m) : Reach fl c m x := by
  induction hnm with
  | refl => exact h
  | step _ ih => exact .succ ih

theorem reach_zero_iff {fl : List Link} {c x : Ident} :
    Reach fl c 0 x ↔ x = c := by
  constructor
  · intro h
    cases h
    rfl
  · rintro rfl
    exact .zero

theorem reach_succ_iff {fl : List Link} {c x : Ident} {n : Nat} :
    Reach fl c (n + 1) x ↔ Reach fl c n x ∨ ∃ y, Reach fl c n y ∧ linked fl y x := by
  constructor
  · intro h
    cases h with
    | succ h => exact .inl h
    | step h hl => exact .inr ⟨_, h, hl⟩
  · rintro (h | ⟨y, hy, hl⟩)
    · exact .succ h
    · exact .step hy hl

/-- A reachability-closed set containing the center absorbs every
reachable identifier. -/
theorem reach_subset_closed {fl : List Link} {c : Ident} {V : Ident → Prop}
    (hc : V c) (hcl : ∀ x, V x → ∀ y, linked fl x y → V y) :
    ∀ {n x}, Reach fl c n x → V x := by
  intro n x h
  induction h with
  | zero => exact hc
  | succ _ ih => exact ih
  | step _ hl ih => exact hcl _ ih _ hl

theorem mem_linkEntries {l : Link} {x w : Ident} {l' : Link} :
    (w, l') ∈ linkEntries l x ↔
      l' = l ∧ ((l.source = x ∧ l.target = w) ∨ (l.target = x ∧ l.source = w)) := by
  by_cases hs : l.source = x <;> by_cases ht : l.target = x <;>
    simp [linkEntries, hs, ht, Prod.ext_iff, eq_comm] <;> tauto

theorem mem_adjEntries {fl : List Link} {x w : Ident} {l' : Link} :
    (w, l') ∈ adjEntries fl x ↔
      l' ∈ fl ∧ ((l'.source = x ∧ l'.target = w) ∨ (l'.target = x ∧ l'.source = w)) := by
  induction fl with
  | nil => simp [adjEntries]
  | cons l fl ih =>
    simp only [adjEntries, List.foldr_cons, List.mem_append] at *
    constructor
    · rintro (h | h)
      · rcases mem_linkEntries.mp h with ⟨rfl, hor⟩
        exact ⟨List.mem_cons_self _ _, hor⟩
      · rcases ih.mp h with ⟨hmem, hor⟩
        exact ⟨List.mem_cons_of_mem _ hmem, hor⟩
    · rintro ⟨hmem, hor⟩
      rcases List.mem_cons.mp hmem with rfl | hmem
      · exact .inl (mem_linkEntries.mpr ⟨rfl, hor⟩)
      · exact .inr (ih.mpr ⟨hmem, hor⟩)

theorem adjEntries_linked {fl : List Link} {x w : Ident} {l' : Link}
    (h : (w, l') ∈ adjEntries fl x) : linked fl x w := by
  rcases mem_adjEntries.mp h with ⟨hmem, hor⟩
  exact ⟨l', hmem, hor⟩

theorem linked_iff_adj {fl : List Link} {x y : Ident} :
    linked fl x y ↔ ∃ l, (y, l) ∈ adjEntries fl x := by
  constructor
  · rintro ⟨l, hl, hor⟩
    exact ⟨l, mem_adjEntries.mpr ⟨hl, hor⟩⟩
  · rintro ⟨l, h⟩
    exact adjEntries_linked h

theorem mem_allIdents {fl : List Link} {x : Ident} :
    x ∈ allIdents fl ↔ ∃ l ∈ fl, l.source = x ∨ l.target = x := by
  induction fl with
  | nil => simp [allIdents]
  | cons l fl ih =>
    simp only [allIdents, List.foldr_cons, List.mem_cons] at *
    constructor
    · rintro (h | h | h)
      · exact ⟨l, .inl rfl, .inl h.symm⟩
      · exact ⟨l, .inl rfl, .inr h.symm⟩
      · rcases ih.mp h with ⟨l2, hl2, hor⟩
        exact ⟨l2, .inr hl2, hor⟩
    · rintro ⟨l2, (rfl | hl2), hor⟩
      · rcases hor with h | h
        · exact .inl h.symm
        · exact .inr (.inl h.symm)
      · exact .inr (.inr (ih.mpr ⟨l2, hl2, hor⟩))

theorem adjEntries_fst_mem_allIdents {fl : List Link} {x w : Ident} {l' : Link}
    (h : (w, l') ∈ adjEntries fl x) : w ∈ allIdents fl := by
  rcases mem_adjEntries.mp h with ⟨hmem, hor⟩
  rcases hor with ⟨_, ht⟩ | ⟨_, hs⟩
  · exact mem_allIdents.mpr ⟨l', hmem, .inr ht⟩
  · exact mem_allIdents.mpr ⟨l', hmem, .inl hs⟩


/-! ### Characterising one inner-loop iteration -/

theorem keysP_any {s : BFSState} {x : Ident} :
    (s.nodes.any (fun p => p.1 = x) = true) ↔ keysP s x := by
  simp [keysP, List.any_eq_true]

theorem realB_eq_true {fn : List Node} {x : Ident} :
    realB fn x = true ↔
      ∃ nd, fn.find? (fun n => n.id = x) = some nd ∧ nd.truthy = true := by
  unfold realB
  cases hf : fn.find? (fun n => n.id = x) <;> simp [hf]

theorem discover_links (fn : List Node) (d : Nat) (s : BFSState) (w : Ident) :
    (discover fn d s w).links = s.links := by
  by_cases hv : w ∈ s.visited
  · simp [discover, hv]
  · cases hf : fn.find? (fun n => n.id = w) with
    | none => simp [discover, hv, hf]
    | some nd => by_cases htr : nd.truthy = true <;> simp [discover, hv, hf, htr]

theorem discover_visited (fn : List Node) (d : Nat) (s : BFSState) (w : Ident) :
    (discover fn d s w).visited
      = (if w ∈ s.visited then s.visited else s.visited ++ [w]) := by
  by_cases hv : w ∈ s.visited
  · simp [discover, hv]
  · cases hf : fn.find? (fun n => n.id = w) with
    | none => simp [discover, hv, hf]
    | some nd => by_cases htr : nd.truthy = true <;> simp [discover, hv, hf, htr]

theorem discover_queue (fn : List Node) (d : Nat) (s : BFSState) (w : Ident) :
    (discover fn d s w).queue
      = (if w ∈ s.visited then s.queue else s.queue ++ [(w, d + 1)]) := by
  by_cases hv : w ∈ s.visited
  · simp [discover, hv]
  · cases hf : fn.find? (fun n => n.id = w) with
    | none => simp [discover, hv, hf]
    | some nd => by_cases htr : nd.truthy = true <;> simp [discover, hv, hf, htr]

theorem discover_nodes (fn : List Node) (d : Nat) (s : BFSState) (w : Ident) :
    (discover fn d s w).nodes = s.nodes ∨
      (w ∉ s.visited ∧ realB fn w = true ∧
        ∃ nd, fn.find? (fun n => n.id = w) = some nd ∧
          (discover fn d s w).nodes = s.nodes ++ [(w, nd)]) := by
  by_cases hv : w ∈ s.visited
  · left
    simp [discover, hv]
  · cases hf : fn.find? (fun n => n.id = w) with
    | none => left; simp [discover, hv, hf]
    | some nd =>
      by_cases htr : nd.truthy = true
      · right
        refine ⟨hv, realB_eq_true.mpr ⟨nd, hf, htr⟩, nd, rfl, ?_⟩
        simp [discover, hv, hf, htr]
      · left
        simp [discover, hv, hf, htr]

theorem discover_keysP (fn : List Node) (d : Nat) (s : BFSState) (w : Ident) :
    ∀ x, keysP (discover fn d s w) x ↔
      keysP s x ∨ (x = w ∧ w ∉ s.visited ∧ realB fn w = true) := by
  intro x
  by_cases hv : w ∈ s.visited
  · simp [discover, hv, keysP]
  · cases hf : fn.find? (fun n => n.id = w) with
    | none =>
      have hr : realB fn w = false := by simp [realB, hf]
      simp [discover, hv, hf, keysP, hr]
    | some nd =>
      by_cases htr : nd.truthy = true
      · have hr : realB fn w = true := by
          rw [realB_eq_true]
          exact ⟨nd, hf, htr⟩
        simp only [discover, hv, if_neg, hf, htr, if_true, ite_true, keysP, hr,
          not_false_iff, and_true, List.mem_append, List.mem_singleton]
        constructor
        · rintro ⟨p, hp | hp, hpx⟩
          · exact .inl ⟨p, hp, hpx⟩
          · subst hp
            exact .inr hpx.symm
        · rintro (⟨p, hp, hpx⟩ | hxw)
          · exact ⟨p, .inl hp, hpx⟩
          · exact ⟨(w, nd), .inr rfl, hxw.symm⟩
      · have hb : nd.truthy = false := Bool.eq_false_iff.mpr htr
        have hr : realB fn w = false := by simp [realB, hf, hb]
        simp [discover, hv, hf, htr, keysP, hr]

theorem addLink_visited (s : BFSState) (w : Ident) (lk : Link) :
    (addLink s w lk).visited = s.visited := by
  unfold addLink
  split <;> rfl

theorem addLink_queue (s : BFSState) (w : Ident) (lk : Link) :
    (addLink s w lk).queue = s.queue := by
  unfold addLink
  split <;> rfl

theorem addLink_nodes (s : BFSState) (w : Ident) (lk : Link) :
    (addLink s w lk).nodes = s.nodes := by
  unfold addLink
  split <;> rfl

theorem addLink_links_mem (s : BFSState) (w : Ident) (lk : Link) :
    ∀ l, l ∈ (addLink s w lk).links ↔ l ∈ s.links ∨ (l = lk ∧ keysP s w) := by
  intro l
  unfold addLink
  by_cases hg : ((s.nodes.any (fun p => p.1 = w)) = true) ∧ lk ∉ s.links
  · rw [if_pos hg]
    simp only [List.mem_append, List.mem_singleton]
    constructor
    · rintro (h | rfl)
      · exact .inl h
      · exact .inr ⟨rfl, keysP_any.mp hg.1⟩
    · rintro (h | ⟨rfl, _⟩)
      · exact .inl h
      · exact .inr rfl
  · rw [if_neg hg]
    constructor
    · exact .inl
    · rintro (h | ⟨rfl, hk⟩)
      · exact h
      · by_cases hl2 : l ∈ s.links
        · exact hl2
        · exact absurd ⟨keysP_any.mpr hk, hl2⟩ hg

theorem addLink_links_sub (s : BFSState) (w : Ident) (lk : Link) :
    s.links.Sublist (addLink s w lk).links := by
  unfold addLink
  split
  · exact List.sublist_append_left _ _
  · exact List.Sublist.refl _

theorem addLink_nodup (s : BFSState) (w : Ident) (lk : Link)
    (h : s.links.Nodup) : (addLink s w lk).links.Nodup := by
  unfold addLink
  by_cases hg : ((s.nodes.any (fun p => p.1 = w)) = true) ∧ lk ∉ s.links
  · rw [if_pos hg]
    simp [List.nodup_append, h, hg.2]
  · rw [if_neg hg]
    exact h

theorem pn_visited (fn : List Node) (d : Nat) (s : BFSState) (w : Ident) (lk : Link) :
    (processNeighbor fn d s (w, lk)).visited
      = (if w ∈ s.visited then s.visited else s.visited ++ [w]) := by
  unfold processNeighbor
  rw [addLink_visited, discover_visited]

theorem pn_queue (fn : List Node) (d : Nat) (s : BFSState) (w : Ident) (lk : Link) :
    (processNeighbor fn d s (w, lk)).queue
      = (if w ∈ s.visited then s.queue else s.queue ++ [(w, d + 1)]) := by
  unfold processNeighbor
  rw [addLink_queue, discover_queue]

theorem pn_nodes (fn : List Node) (d : Nat) (s : BFSState) (w : Ident) (lk : Link) :
    (processNeighbor fn d s (w, lk)).nodes = s.nodes ∨
      (w ∉ s.visited ∧ realB fn w = true ∧
        ∃ nd, fn.find? (fun n => n.id = w) = some nd ∧
          (processNeighbor fn d s (w, lk)).nodes = s.nodes ++ [(w, nd)]) := by
  unfold processNeighbor
  rw [addLink_nodes]
  exact discover_nodes fn d s w

theorem pn_keysP (fn : List Node) (d : Nat) (s : BFSState) (w : Ident) (lk : Link) :
    ∀ x, keysP (processNeighbor fn d s (w, lk)) x ↔
      keysP s x ∨ (x = w ∧ w ∉ s.visited ∧ realB fn w = true) := by
  intro x
  unfold processNeighbor
  have : keysP (addLink (discover fn d s w) w lk) x ↔ keysP (discover fn d s w) x := by
    unfold keysP
    rw [addLink_nodes]
  rw [this]
  exact discover_keysP fn d s w x

theorem pn_links_mem (fn : List Node) (d : Nat) (s : BFSState) (w : Ident) (lk : Link) :
    ∀ l, l ∈ (processNeighbor fn d s (w, lk)).links ↔
      l ∈ s.links ∨ (l = lk ∧ (keysP s w ∨ (w ∉ s.visited ∧ realB fn w = true))) := by
  intro l
  unfold processNeighbor
  rw [addLink_links_mem, discover_links, discover_keysP]
  simp

theorem pn_links_sub (fn : List Node) (d : Nat) (s : BFSState) (w : Ident) (lk : Link) :
    s.links.Sublist (processNeighbor fn d s (w, lk)).links := by
  unfold processNeighbor
  have h := addLink_links_sub (discover fn d s w) w lk
  rwa [discover_links] at h

theorem pn_nodup (fn : List Node) (d : Nat) (s : BFSState) (w : Ident) (lk : Link)
    (h : s.links.Nodup) : (processNeighbor fn d s (w, lk)).links.Nodup := by
  unfold processNeighbor
  apply addLink_nodup
  rwa [discover_links]

theorem pn_nodes_val (fn : List Node) (d : Nat) (s : BFSState) (w : Ident) (lk : Link) :
    ∀ p ∈ (processNeighbor fn d s (w, lk)).nodes,
      p ∈ s.nodes ∨ fn.find? (fun n => n.id = p.1) = some p.2 := by
  intro p hp
  rcases pn_nodes fn d s w lk with h | ⟨_, _, nd, hf, h⟩
  · rw [h] at hp
    exact .inl hp
  · rw [h] at hp
    rcases List.mem_append.mp hp with hp | hp
    · exact .inl hp
    · simp at hp
      subst hp
      exact .inr hf

theorem pn_nodes_sub (fn : List Node) (d : Nat) (s : BFSState) (w : Ident) (lk : Link) :
    s.nodes.Sublist (processNeighbor fn d s (w, lk)).nodes := by
  rcases pn_nodes fn d s w lk with h | ⟨_, _, nd, _, h⟩ <;> rw [h]
  exact List.sublist_append_left _ _

theorem pn_visited_sub (fn : List Node) (d : Nat) (s : BFSState) (w : Ident) (lk : Link) :
    s.visited.Sublist (processNeighbor fn d s (w, lk)).visited := by
  rw [pn_visited]
  split
  · exact List.Sublist.refl _
  · exact List.sublist_append_left _ _

/-- The nodes dictionary keys stay a subsequence of the visited list
(in first-visit order) across one inner-loop iteration. -/
theorem pn_order (fn : List Node) (d : Nat) (s : BFSState) (w : Ident) (lk : Link)
    (h : (s.nodes.map (fun p => p.1)).Sublist s.visited) :
    ((processNeighbor fn d s (w, lk)).nodes.map (fun p => p.1)).Sublist
      (processNeighbor fn d s (w, lk)).visited := by
  rcases pn_nodes fn d s w lk with hn | ⟨hv, _, nd, _, hn⟩ <;> rw [hn, pn_visited]
  · split
    · exact h
    · exact h.trans (List.sublist_append_left _ _)
  · rw [if_neg hv]
    rw [List.map_append]
    exact List.Sublist.append h (List.Sublist.refl _)

/-! ### Characterising a full expansion (the fold over the adjacency list) -/

theorem pn_visited_mem (fn : List Node) (d : Nat) (s : BFSState) (w : Ident) (lk : Link) :
    ∀ x, x ∈ (processNeighbor fn d s (w, lk)).visited ↔
      x ∈ s.visited ∨ (x = w ∧ w ∉ s.visited) := by
  intro x
  rw [pn_visited]
  by_cases hv : w ∈ s.visited
  · rw [if_pos hv]
    constructor
    · exact .inl
    · rintro (h | ⟨rfl, h⟩)
      · exact h
      · exact absurd hv h
  · rw [if_neg hv]
    simp only [List.mem_append, List.mem_singleton]
    constructor
    · rintro (h | rfl)
      · exact .inl h
      · exact .inr ⟨rfl, hv⟩
    · rintro (h | ⟨rfl, _⟩)
      · exact .inl h
      · exact .inr rfl

/-- Stability of the link-acceptance guard across one iteration: whether a
later parallel entry for the same neighbor identifier is accepted does not
change after this iteration. -/
theorem pn_guard (fn : List Node) (d : Nat) (s : BFSState) (w0 : Ident) (lk0 : Link) :
    ∀ w, (keysP (processNeighbor fn d s (w0, lk0)) w ∨
        (w ∉ (processNeighbor fn d s (w0, lk0)).visited ∧ realB fn w = true)) ↔
      (keysP s w ∨ (w ∉ s.visited ∧ realB fn w = true)) := by
  intro w
  rw [pn_keysP]
  constructor
  · rintro ((hk | ⟨rfl, hfresh, hreal⟩) | ⟨hnv, hreal⟩)
    · exact .inl hk
    · exact .inr ⟨hfresh, hreal⟩
    · refine .inr ⟨?_, hreal⟩
      intro hmem
      exact hnv ((pn_visited_mem fn d s w0 lk0 w).mpr (.inl hmem))
  · rintro (hk | ⟨hnv, hreal⟩)
    · exact .inl (.inl hk)
    · by_cases hww : w = w0
      · subst hww
        exact .inl (.inr ⟨rfl, hnv, hreal⟩)
      · refine .inr ⟨?_, hreal⟩
        intro hmem
        rcases (pn_visited_mem fn d s w0 lk0 w).mp hmem with h | ⟨rfl, _⟩
        · exact hnv h
        · exact hww rfl

theorem fold_visited_mem (fn : List Node) (d : Nat) :
    ∀ (es : List (Ident × Link)) (s : BFSState) (x : Ident),
      x ∈ (es.foldl (fun t e => processNeighbor fn d t e) s).visited ↔
        x ∈ s.visited ∨ ∃ l, (x, l) ∈ es := by
  intro es
  induction es with
  | nil => simp
  | cons e es2 ih =>
    rcases e with ⟨w0, lk0⟩
    intro s x
    rw [List.foldl_cons, ih]
    rw [pn_visited_mem]
    constructor
    · rintro ((h | ⟨rfl, _⟩) | ⟨l, hl⟩)
      · exact .inl h
      · exact .inr ⟨lk0, List.mem_cons_self _ _⟩
      · exact .inr ⟨l, List.mem_cons_of_mem _ hl⟩
    · rintro (h | ⟨l, hl⟩)
      · exact .inl (.inl h)
      · rcases List.mem_cons.mp hl with heq | hl
        · by_cases hv : w0 ∈ s.visited
          · have : x = w0 := congrArg Prod.fst heq
            subst this
            exact .inl (.inl hv)
          · have : x = w0 := congrArg Prod.fst heq
            exact .inl (.inr ⟨this, hv⟩)
        · exact .inr ⟨l, hl⟩

theorem fold_links_mem (fn : List Node) (d : Nat) :
    ∀ (es : List (Ident × Link)) (s : BFSState) (l : Link),
      l ∈ (es.foldl (fun t e => processNeighbor fn d t e) s).links ↔
        l ∈ s.links ∨
          ∃ w, (w, l) ∈ es ∧ (keysP s w ∨ (w ∉ s.visited ∧ realB fn w = true)) := by
  intro es
  induction es with
  | nil => simp
  | cons e es2 ih =>
    rcases e with ⟨w0, lk0⟩
    intro s l
    rw [List.foldl_cons, ih]
    constructor
    · rintro (hmem | ⟨w, hw, hg⟩)
      · rcases (pn_links_mem fn d s w0 lk0 l).mp hmem with h | ⟨rfl, hg0⟩
        · exact .inl h
        · exact .inr ⟨w0, List.mem_cons_self _ _, hg0⟩
      · exact .inr ⟨w, List.mem_cons_of_mem _ hw, (pn_guard fn d s w0 lk0 w).mp hg⟩
    · rintro (hmem | ⟨w, hw, hg⟩)
      · exact .inl ((pn_links_mem fn d s w0 lk0 l).mpr (.inl hmem))
      · rcases List.mem_cons.mp hw with heq | hw
        · have hww : w = w0 := congrArg Prod.fst heq
        
          subst hww
          have hll : l = lk0 := congrArg Prod.snd heq
          exact .inl ((pn_links_mem fn d s w lk0 l).mpr (.inr ⟨hll, hg⟩))
        · exact .inr ⟨w, hw, (pn_guard fn d s w0 lk0 w).mpr hg⟩

theorem fold_queue (fn : List Node) (d : Nat) :
    ∀ (es : List (Ident × Link)) (s : BFSState),
      ∃ L, (es.foldl (fun t e => processNeighbor fn d t e) s).queue = s.queue ++ L ∧
        (∀ p ∈ L, p.2 = d + 1 ∧ p.1 ∉ s.visited ∧ ∃ l, (p.1, l) ∈ es) ∧
        (∀ x, (∃ l, (x, l) ∈ es) → x ∉ s.visited → ∃ p ∈ L, p.1 = x) := by
  intro es
  induction es with
  | nil =>
    intro s
    exact ⟨[], by simp, by simp, by simp⟩
  | cons e es2 ih =>
    rcases e with ⟨w0, lk0⟩
    intro s
    rw [List.foldl_cons]
    rcases ih (processNeighbor fn d s (w0, lk0)) with ⟨L2, hq, hprop, hcov⟩
    by_cases hv : w0 ∈ s.visited
    · refine ⟨L2, ?_, ?_, ?_⟩
      · rw [hq, pn_queue, if_pos hv]
      · intro p hp
        rcases hprop p hp with ⟨hd, hnv, l, hl⟩
        refine ⟨hd, ?_, l, List.mem_cons_of_mem _ hl⟩
        intro hmem
        exact hnv ((pn_visited_mem fn d s w0 lk0 p.1).mpr (.inl hmem))
      · rintro x ⟨l, hl⟩ hnv
        rcases List.mem_cons.mp hl with heq | hl
        · have : x = w0 := congrArg Prod.fst heq
          subst this
          exact absurd hv hnv
        · refine hcov x ⟨l, hl⟩ ?_
          intro hmem
          rcases (pn_visited_mem fn d s w0 lk0 x).mp hmem with h | ⟨rfl, _⟩
          · exact hnv h
          · exact hnv hv
    · refine ⟨(w0, d + 1) :: L2, ?_, ?_, ?_⟩
      · rw [hq, pn_queue, if_neg hv, List.append_assoc]
        rfl
      · intro p hp
        rcases List.mem_cons.mp hp with rfl | hp
        · exact ⟨rfl, hv, lk0, List.mem_cons_self _ _⟩
        · rcases hprop p hp with ⟨hd, hnv, l, hl⟩
          refine ⟨hd, ?_, l, List.mem_cons_of_mem _ hl⟩
          intro hmem
          exact hnv ((pn_visited_mem fn d s w0 lk0 p.1).mpr (.inl hmem))
      · rintro x ⟨l, hl⟩ hnv
        rcases List.mem_cons.mp hl with heq | hl
        · have : x = w0 := congrArg Prod.fst heq
          subst this
          exact ⟨(x, d + 1), List.mem_cons_self _ _, rfl⟩
        · by_cases hxw : x = w0
          · subst hxw
            exact ⟨(x, d + 1), List.mem_cons_self _ _, rfl⟩
          · have hx2 : x ∉ (processNeighbor fn d s (w0, lk0)).visited := by
              intro hmem
              rcases (pn_visited_mem fn d s w0 lk0 x).mp hmem with h | ⟨h, _⟩
              · exact hnv h
              · exact hxw h
            rcases hcov x ⟨l, hl⟩ hx2 with ⟨p, hp, hpx⟩
            exact ⟨p, List.mem_cons_of_mem _ hp, hpx⟩

theorem fold_links_sub (fn : List Node) (d : Nat) :
    ∀ (es : List (Ident × Link)) (s : BFSState),
      s.links.Sublist (es.foldl (fun t e => processNeighbor fn d t e) s).links := by
  intro es
  induction es with
  | nil => intro s; exact List.Sublist.refl _
  | cons e es2 ih =>
    intro s
    rw [List.foldl_cons]
    exact (pn_links_sub fn d s e.1 e.2).trans (ih _)

theorem fold_nodup (fn : List Node) (d : Nat) :
    ∀ (es : List (Ident × Link)) (s : BFSState),
      s.links.Nodup → (es.foldl (fun t e => processNeighbor fn d t e) s).links.Nodup := by
  intro es
  induction es with
  | nil => intro s h; exact h
  | cons e es2 ih =>
    intro s h
    rw [List.foldl_cons]
    exact ih _ (pn_nodup fn d s e.1 e.2 h)

theorem fold_nodes_sub (fn : List Node) (d : Nat) :
    ∀ (es : List (Ident × Link)) (s : BFSState),
      s.nodes.Sublist (es.foldl (fun t e => processNeighbor fn d t e) s).nodes := by
  intro es
  induction es with
  | nil => intro s; exact List.Sublist.refl _
  | cons e es2 ih =>
    intro s
    rw [List.foldl_cons]
    exact (pn_nodes_sub fn d s e.1 e.2).trans (ih _)

theorem fold_visited_sub (fn : List Node) (d : Nat) :
    ∀ (es : List (Ident × Link)) (s : BFSState),
      s.visited.Sublist (es.foldl (fun t e => processNeighbor fn d t e) s).visited := by
  intro es
  induction es with
  | nil => intro s; exact List.Sublist.refl _
  | cons e es2 ih =>
    intro s
    rw [List.foldl_cons]
    exact (pn_visited_sub fn d s e.1 e.2).trans (ih _)

theorem fold_nodes_val (fn : List Node) (d : Nat) :
    ∀ (es : List (Ident × Link)) (s : BFSState),
      ∀ p ∈ (es.foldl (fun t e => processNeighbor fn d t e) s).nodes,
        p ∈ s.nodes ∨ fn.find? (fun n => n.id = p.1) = some p.2 := by
  intro es
  induction es with
  | nil => intro s p hp; exact .inl hp
  | cons e es2 ih =>
    intro s p hp
    rw [List.foldl_cons] at hp
    rcases ih _ p hp with h | h
    · exact pn_nodes_val fn d s e.1 e.2 p h
    · exact .inr h

theorem fold_order (fn : List Node) (d : Nat) :
    ∀ (es : List (Ident × Link)) (s : BFSState),
      (s.nodes.map (fun p => p.1)).Sublist s.visited →
        ((es.foldl (fun t e => processNeighbor fn d t e) s).nodes.map (fun p => p.1)).Sublist
          (es.foldl (fun t e => processNeighbor fn d t e) s).visited := by
  intro es
  induction es with
  | nil => intro s h; exact h
  | cons e es2 ih =>
    intro s h
    rw [List.foldl_cons]
    exact ih _ (pn_order fn d s e.1 e.2 h)

/-! ### Termination: the measure decreases and the fuelled loop drains -/

theorem filter_length_mono {p q : Ident → Bool}
    (h : ∀ x, p x = true → q x = true) :
    ∀ L : List Ident, (L.filter p).length ≤ (L.filter q).length := by
  intro L
  induction L with
  | nil => simp
  | cons a L2 ih =>
    by_cases hp : p a = true
    · rw [List.filter_cons_of_pos hp, List.filter_cons_of_pos (h a hp)]
      simpa using ih
    · rw [List.filter_cons_of_neg (by simpa using hp)]
      by_cases hqa : q a = true
      · rw [List.filter_cons_of_pos hqa]
        exact ih.trans (Nat.le_succ _)
      · rw [List.filter_cons_of_neg (by simpa using hqa)]
        exact ih

theorem filter_fresh_decrease {v : List Ident} {w : Ident} (hv : w ∉ v) :
    ∀ L : List Ident, w ∈ L →
      ((L.filter (fun x => decide (x ∉ v ++ [w]))).length) + 1 ≤
        (L.filter (fun x => decide (x ∉ v))).length := by
  intro L
  induction L with
  | nil => simp
  | cons a L2 ih =>
    intro hw
    by_cases haw : a = w
    · subst haw
      rw [List.filter_cons_of_neg (by simp), List.filter_cons_of_pos (by simpa using hv)]
      rw [List.length_cons, Nat.add_le_add_iff_right]
      refine filter_length_mono ?_ L2
      intro x hx
      simp only [decide_eq_true_iff, List.mem_append, List.mem_singleton] at hx ⊢
      intro hmem
      exact hx (.inl hmem)
    · have hw2 : w ∈ L2 := by
        rcases List.mem_cons.mp hw with h | h
        · exact absurd h.symm haw
        · exact h
      by_cases hav : a ∈ v
      · rw [List.filter_cons_of_neg (by simp [hav]), List.filter_cons_of_neg (by simp [hav])]
        exact ih hw2
      · rw [List.filter_cons_of_pos (by simp [hav, haw]), List.filter_cons_of_pos (by simpa using hav)]
        rw [List.length_cons, List.length_cons, Nat.add_le_add_iff_right]
        exact ih hw2

theorem pn_measure (fn : List Node) (fl : List Link) (d : Nat) (s : BFSState)
    (e : Ident × Link) (he : e.1 ∈ allIdents fl) :
    bfsMeasure fl (processNeighbor fn d s e) ≤ bfsMeasure fl s := by
  rcases e with ⟨w, lk⟩
  by_cases hv : w ∈ s.visited
  · simp only [bfsMeasure, pn_visited, pn_queue, if_pos hv, le_refl]
  · simp only [bfsMeasure, pn_visited, pn_queue, if_neg hv, List.length_append,
      List.length_singleton]
    have := filter_fresh_decrease hv (allIdents fl) he
    omega

theorem fold_measure (fn : List Node) (fl : List Link) (d : Nat) :
    ∀ (es : List (Ident × Link)) (s : BFSState),
      (∀ e ∈ es, e.1 ∈ allIdents fl) →
        bfsMeasure fl (es.foldl (fun t e => processNeighbor fn d t e) s) ≤ bfsMeasure fl s := by
  intro es
  induction es with
  | nil => intro s _; exact le_refl _
  | cons e es2 ih =>
    intro s h
    rw [List.foldl_cons]
    exact (ih _ (fun e2 he2 => h e2 (List.mem_cons_of_mem _ he2))).trans
      (pn_measure fn fl d s e (h e (List.mem_cons_self _ _)))

theorem step_measure (fn : List Node) (fl : List Link) (deg : Nat) (s : BFSState)
    (cur : Ident) (dd : Nat) (rest : List (Ident × Nat))
    (hq : s.queue = (cur, dd) :: rest) :
    bfsMeasure fl
        (if dd < deg then expand fn fl dd cur { s with queue := rest }
         else { s with queue := rest }) < bfsMeasure fl s := by
  have hrest : bfsMeasure fl { s with queue := rest } < bfsMeasure fl s := by
    simp only [bfsMeasure, hq, List.length_cons]
    omega
  split
  · refine lt_of_le_of_lt ?_ hrest
    refine fold_measure fn fl dd (adjEntries fl cur) _ ?_
    rintro ⟨w, l⟩ he
    exact adjEntries_fst_mem_allIdents he
  · exact hrest

theorem bfsRun_queue_nil (fn : List Node) (fl : List Link) (deg : Nat) :
    ∀ (f : Nat) (s : BFSState), bfsMeasure fl s ≤ f →
      (bfsRun fn fl deg f s).queue = [] := by
  intro f
  induction f with
  | zero =>
    intro s h
    have : s.queue.length = 0 := by
      simp only [bfsMeasure] at h
      omega
    simpa [bfsRun] using List.length_eq_zero.mp this
  | succ f ih =>
    intro s h
    cases hq : s.queue with
    | nil => simp [bfsRun, hq]
    | cons p rest =>
      rcases p with ⟨cur, dd⟩
      have hlt := step_measure fn fl deg s cur dd rest hq
      simp only [bfsRun, hq]
      exact ih _ (by omega)

/-- Generic invariant rule for the while loop: a property preserved by
every loop iteration holds of the final state. -/
theorem bfsRun_inv (fn : List Node) (fl : List Link) (deg : Nat)
    (P : BFSState → Prop)
    (hstep : ∀ s cur dd rest, s.queue = (cur, dd) :: rest → P s →
      P (if dd < deg then expand fn fl dd cur { s with queue := rest }
         else { s with queue := rest })) :
    ∀ (f : Nat) (s : BFSState), P s → P (bfsRun fn fl deg f s) := by
  intro f
  induction f with
  | zero => intro s h; exact h
  | succ f ih =>
    intro s h
    cases hq : s.queue with
    | nil => simpa [bfsRun, hq]
    | cons p rest =>
      rcases p with ⟨cur, dd⟩
      simp only [bfsRun, hq]
      exact ih _ (hstep s cur dd rest hq h)

/-! ### The structural invariant is preserved by the loop -/

theorem fold_pres (fn : List Node) (d : Nat) (P : BFSState → Prop)
    (hpn : ∀ s e, P s → P (processNeighbor fn d s e)) :
    ∀ (es : List (Ident × Link)) (s : BFSState),
      P s → P (es.foldl (fun t e => processNeighbor fn d t e) s) := by
  intro es
  induction es with
  | nil => intro s h; exact h
  | cons e es2 ih =>
    intro s h
    rw [List.foldl_cons]
    exact ih _ (hpn s e h)

theorem pn_pres_keys (fn : List Node) (d : Nat) (s : BFSState) (e : Ident × Link)
    (h : ∀ x, keysP s x ↔ x ∈ s.visited ∧ realB fn x = true) :
    ∀ x, keysP (processNeighbor fn d s e) x ↔
      x ∈ (processNeighbor fn d s e).visited ∧ realB fn x = true := by
  rcases e with ⟨w, lk⟩
  intro x
  rw [pn_keysP, pn_visited_mem, h]
  constructor
  · rintro (⟨hv, hr⟩ | ⟨hxw, hf, hr⟩)
    · exact ⟨.inl hv, hr⟩
    · subst hxw
      exact ⟨.inr ⟨rfl, hf⟩, hr⟩
  · rintro ⟨hv | ⟨hxw, hf⟩, hr⟩
    · exact .inl ⟨hv, hr⟩
    · subst hxw
      exact .inr ⟨rfl, hf, hr⟩

theorem pn_pres_cons (fn : List Node) (d : Nat) (s : BFSState) (e : Ident × Link)
    (p0 : Ident × Node) (h : ∃ r2, s.nodes = p0 :: r2) :
    ∃ r2, (processNeighbor fn d s e).nodes = p0 :: r2 := by
  rcases e with ⟨w, lk⟩
  obtain ⟨r2, hr⟩ := h
  rcases pn_nodes fn d s w lk with hN | ⟨_, _, nd, _, hN⟩
  · exact ⟨r2, by rw [hN, hr]⟩
  · exact ⟨r2 ++ [(w, nd)], by rw [hN, hr]; rfl⟩

theorem bfsInv_step (fn : List Node) (fl : List Link) (c : String) (cObj : Node)
    (deg : Nat) (s : BFSState) (cur : Ident) (dd : Nat) (rest : List (Ident × Nat))
    (hq : s.queue = (cur, dd) :: rest) (h : bfsInv fn fl c cObj s) :
    bfsInv fn fl c cObj
      (if dd < deg then expand fn fl dd cur { s with queue := rest }
       else { s with queue := rest }) := by
  obtain ⟨hQ, hN, hNV, hL, hND, hO, hH⟩ := h
  have hQ1 : ∀ p ∈ rest, p.1 ∈ s.visited := by
    intro p hp
    exact hQ p (by rw [hq]; exact List.mem_cons_of_mem _ hp)
  have hcur : cur ∈ s.visited := hQ (cur, dd) (by rw [hq]; exact List.mem_cons_self _ _)
  by_cases hlt : dd < deg
  · rw [if_pos hlt]
    unfold expand
    refine ⟨?_, ?_, ?_, ?_, ?_, ?_, ?_⟩
    · intro p hp
      obtain ⟨L, hfq, hprop, _⟩ := fold_queue fn dd (adjEntries fl cur) { s with queue := rest }
      rw [hfq] at hp
      rcases List.mem_append.mp hp with hp | hp
      · exact (fold_visited_sub fn dd _ _).subset (hQ1 p hp)
      · obtain ⟨_, _, l, hl⟩ := hprop p hp
        exact (fold_visited_mem fn dd _ _ p.1).mpr (.inr ⟨l, hl⟩)
    · exact fold_pres fn dd _ (fun t e ht => pn_pres_keys fn dd t e ht) _ _ hN
    · intro p hp
      rcases fold_nodes_val fn dd _ _ p hp with hmem | hval
      · exact hNV p hmem
      · exact hval
    · intro l hl
      rw [fold_links_mem] at hl
      rcases hl with hl | ⟨w, hw, hg⟩
      · obtain ⟨hfl2, hs2, ht2⟩ := hL l hl
        exact ⟨hfl2, (fold_visited_sub fn dd _ _).subset hs2,
          (fold_visited_sub fn dd _ _).subset ht2⟩
      · obtain ⟨hfl2, hor⟩ := mem_adjEntries.mp hw
        have hwvis : w ∈ (List.foldl (fun t e => processNeighbor fn dd t e)
            { s with queue := rest } (adjEntries fl cur)).visited := by
          rcases hg with hk | ⟨hnv, hr⟩
          · have : w ∈ s.visited := ((hN w).mp hk).1
            exact (fold_visited_sub fn dd _ _).subset this
          · exact (fold_visited_mem fn dd _ _ w).mpr (.inr ⟨l, hw⟩)
        have hcvis : cur ∈ (List.foldl (fun t e => processNeighbor fn dd t e)
            { s with queue := rest } (adjEntries fl cur)).visited :=
          (fold_visited_sub fn dd _ _).subset hcur
        rcases hor with ⟨hsrc, htgt⟩ | ⟨htgt, hsrc⟩
        · exact ⟨hfl2, by rw [hsrc]; exact hcvis, by rw [htgt]; exact hwvis⟩
        · exact ⟨hfl2, by rw [hsrc]; exact hwvis, by rw [htgt]; exact hcvis⟩
    · exact fold_nodup fn dd _ _ hND
    · exact fold_order fn dd _ _ hO
    · exact fold_pres fn dd _ (fun t e ht => pn_pres_cons fn dd t e _ ht) _ _ hH
  · rw [if_neg hlt]
    exact ⟨hQ1, hN, hNV, hL, hND, hO, hH⟩

theorem truthy_of_id_some {n : Node} {c : String} (h : n.id = some c) :
    n.truthy = true := by
  simp [Node.truthy, h]

theorem find?_id_eq {fn : List Node} {x : Ident} {nd : Node}
    (h : fn.find? (fun n => n.id = x) = some nd) : nd.id = x := by
  have := List.find?_some h
  simpa using this

theorem bfsInv_init (fn : List Node) (fl : List Link) (c : String) (cObj : Node)
    (hfind : fn.find? (fun n => n.id = some c) = some cObj) :
    bfsInv fn fl c cObj (initState c cObj) := by
  have hid : cObj.id = some c := find?_id_eq hfind
  have hreal : realB fn (some c) = true :=
    realB_eq_true.mpr ⟨cObj, hfind, truthy_of_id_some hid⟩
  refine ⟨?_, ?_, ?_, ?_, ?_, ?_, ?_⟩
  · intro p hp
    simp only [initState, List.mem_singleton] at hp
    subst hp
    simp [initState]
  · intro x
    constructor
    · rintro ⟨p, hp, hpx⟩
      simp only [initState, List.mem_singleton] at hp
      subst hp
      have hx : x = some c := hpx.symm
      subst hx
      exact ⟨by simp [initState], hreal⟩
    · rintro ⟨hx, _⟩
      have hx2 : x = some c := by simpa [initState] using hx
      exact ⟨(some c, cObj), by simp [initState], hx2.symm⟩
  · intro p hp
    simp only [initState, List.mem_singleton] at hp
    subst hp
    exact hfind
  · intro l hl
    simp [initState] at hl
  · simp [initState]
  · simp [initState]
  · exact ⟨[], rfl⟩

theorem bfsInv_final (fn : List Node) (fl : List Link) (c : String) (d : Int)
    (cObj : Node) (hfind : fn.find? (fun n => n.id = some c) = some cObj) :
    bfsInv fn fl c cObj (finalState fn fl c d) := by
  unfold finalState
  rw [hfind]
  exact bfsRun_inv fn fl (clampDeg d) _
    (fun s cur dd rest hq h => bfsInv_step fn fl c cObj (clampDeg d) s cur dd rest hq h)
    _ _ (bfsInv_init fn fl c cObj hfind)

/-! ### Soundness of the traversal -/

theorem sInv_init (fl : List Link) (c : String) (cObj : Node) (deg : Nat) :
    sInv fl (some c) deg (initState c cObj) := by
  constructor
  · intro p hp
    simp only [initState, List.mem_singleton] at hp
    subst hp
    exact ⟨.zero, Nat.zero_le _⟩
  · intro x hx
    have : x = some c := by simpa [initState] using hx
    subst this
    exact Reach.self fl _ deg

theorem sInv_step (fn : List Node) (fl : List Link) (c : Ident) (deg : Nat)
    (s : BFSState) (cur : Ident) (dd : Nat) (rest : List (Ident × Nat))
    (hq : s.queue = (cur, dd) :: rest) (h : sInv fl c deg s) :
    sInv fl c deg
      (if dd < deg then expand fn fl dd cur { s with queue := rest }
       else { s with queue := rest }) := by
  obtain ⟨hQ, hV⟩ := h
  have hcurR : Reach fl c dd cur ∧ dd ≤ deg :=
    hQ (cur, dd) (by rw [hq]; exact List.mem_cons_self _ _)
  have hQ1 : ∀ p ∈ rest, Reach fl c p.2 p.1 ∧ p.2 ≤ deg := by
    intro p hp
    exact hQ p (by rw [hq]; exact List.mem_cons_of_mem _ hp)
  by_cases hlt : dd < deg
  · rw [if_pos hlt]
    unfold expand
    obtain ⟨L, hfq, hprop, _⟩ :=
      fold_queue fn dd (adjEntries fl cur) { s with queue := rest }
    constructor
    · intro p hp
      rw [hfq] at hp
      rcases List.mem_append.mp hp with hp | hp
      · exact hQ1 p hp
      · obtain ⟨hd2, _, l, hl⟩ := hprop p hp
        rw [hd2]
        exact ⟨Reach.step hcurR.1 (adjEntries_linked hl), by omega⟩
    · intro x hx
      rw [fold_visited_mem] at hx
      rcases hx with hx | ⟨l, hl⟩
      · exact hV x hx
      · exact (Reach.step hcurR.1 (adjEntries_linked hl)).mono (by omega)
  · rw [if_neg hlt]
    exact ⟨hQ1, hV⟩

/-! ### Completeness of the traversal -/

theorem cInv_init (fl : List Link) (c : String) (cObj : Node) (deg : Nat) :
    cInv fl (some c) deg (initState c cObj) := by
  refine ⟨0, [(some c, 0)], [], rfl, ?_, by simp, ?_, ?_, by simp, by simp⟩
  · intro p hp
    simp only [List.mem_singleton] at hp
    subst hp
    rfl
  · intro x hx
    have : x = some c := reach_zero_iff.mp hx
    subst this
    simp [initState]
  · intro _ x hx
    have : x = some c := by simpa [initState] using hx
    subst this
    exact .inl ⟨(some c, 0), List.mem_cons_self _ _, rfl⟩

theorem cInv_step (fn : List Node) (fl : List Link) (c : Ident) (deg : Nat)
    (s : BFSState) (cur : Ident) (dd : Nat) (rest : List (Ident × Nat))
    (hq : s.queue = (cur, dd) :: rest) (h : cInv fl c deg s) :
    cInv fl c deg
      (if dd < deg then expand fn fl dd cur { s with queue := rest }
       else { s with queue := rest }) := by
  obtain ⟨d, A, B, hAB, hdA, hdB, hball, hiii, hBnr, hBne⟩ := h
  cases A with
  | nil =>
    simp only [List.nil_append] at hAB
    have hBcons : B = (cur, dd) :: rest := by rw [← hAB]; exact hq
    have hdd : dd = d + 1 := by
      have := hdB (cur, dd) (by rw [hBcons]; exact List.mem_cons_self _ _)
      simpa using this
    have hdlt : d < deg := hBne (by rw [hBcons]; exact List.cons_ne_nil _ _)
    have hball2 : ∀ x, Reach fl c (d + 1) x → x ∈ s.visited := by
      intro x hx
      rcases reach_succ_iff.mp hx with hx | ⟨y, hy, hlink⟩
      · exact hball x hx
      · have hyv : y ∈ s.visited := hball y hy
        rcases hiii hdlt y hyv with ⟨p, hp, hpy⟩ | hclosed
        · exfalso
          rw [hAB] at hp
          exact hBnr p hp (by rw [hpy]; exact hy)
        · exact hclosed x hlink
    have hdB1 : ∀ p ∈ rest, p.2 = d + 1 := by
      intro p hp
      exact hdB p (by rw [hBcons]; exact List.mem_cons_of_mem _ hp)
    by_cases hlt : dd < deg
    · rw [if_pos hlt]
      unfold expand
      obtain ⟨L, hfq, hprop, hcov⟩ :=
        fold_queue fn dd (adjEntries fl cur) { s with queue := rest }
      refine ⟨d + 1, rest, L, hfq, hdB1, ?_, ?_, ?_, ?_, ?_⟩
      · intro p hp
        rw [(hprop p hp).1, hdd]
      · intro x hx
        exact (fold_visited_sub fn dd _ _).subset (hball2 x hx)
      · intro hlt2 x hx
        by_cases hxv : x ∈ s.visited
        · rcases hiii hdlt x hxv with ⟨p, hp, hpx⟩ | hclosed
          · rw [hq] at hp
            rcases List.mem_cons.mp hp with heq | hp
            · right
              intro y hy
              have hxcur : cur = x := by rw [heq] at hpx; exact hpx
              subst hxcur
              rcases linked_iff_adj.mp hy with ⟨l, hl⟩
              exact (fold_visited_mem fn dd _ _ y).mpr (.inr ⟨l, hl⟩)
            · left
              exact ⟨p, by rw [hfq]; exact List.mem_append.mpr (.inl hp), hpx⟩
          · right
            intro y hy
            exact (fold_visited_sub fn dd _ _).subset (hclosed y hy)
        · have hentry : ∃ l, (x, l) ∈ adjEntries fl cur := by
            rcases (fold_visited_mem fn dd _ _ x).mp hx with h2 | h2
            · exact absurd h2 hxv
            · exact h2
          left
          rcases hcov x hentry hxv with ⟨p, hp, hpx⟩
          exact ⟨p, by rw [hfq]; exact List.mem_append.mpr (.inr hp), hpx⟩
      · intro p hp hreach
        exact (hprop p hp).2.1 (hball2 _ hreach)
      · intro _
        rw [← hdd]
        exact hlt
    · rw [if_neg hlt]
      refine ⟨d + 1, rest, [], by simp, hdB1, by simp, hball2, ?_, by simp, by simp⟩
      intro hlt2
      exact absurd (hdd ▸ hlt2) hlt
  | cons p0 A2 =>
    rw [hq, List.cons_append, List.cons.injEq] at hAB
    obtain ⟨hp0eq, hrest⟩ := hAB
    have hdd : dd = d := by
      have := hdA p0 (List.mem_cons_self _ _)
      rw [← hp0eq] at this
      simpa using this
    have hdA1 : ∀ p ∈ A2, p.2 = d := fun p hp => hdA p (List.mem_cons_of_mem _ hp)
    by_cases hlt : dd < deg
    · rw [if_pos hlt]
      unfold expand
      obtain ⟨L, hfq, hprop, hcov⟩ :=
        fold_queue fn dd (adjEntries fl cur) { s with queue := rest }
      refine ⟨d, A2, B ++ L, ?_, hdA1, ?_, ?_, ?_, ?_, ?_⟩
      · rw [hfq, hrest, List.append_assoc]
      · intro p hp
        rcases List.mem_append.mp hp with hp | hp
        · exact hdB p hp
        · rw [(hprop p hp).1, hdd]
      · intro x hx
        exact (fold_visited_sub fn dd _ _).subset (hball x hx)
      · intro hlt2 x hx
        by_cases hxv : x ∈ s.visited
        · rcases hiii hlt2 x hxv with ⟨p, hp, hpx⟩ | hclosed
          · rw [hq] at hp
            rcases List.mem_cons.mp hp with heq | hp
            · right
              intro y hy
              have hxcur : cur = x := by rw [heq] at hpx; exact hpx
              subst hxcur
              rcases linked_iff_adj.mp hy with ⟨l, hl⟩
              exact (fold_visited_mem fn dd _ _ y).mpr (.inr ⟨l, hl⟩)
            · left
              exact ⟨p, by rw [hfq]; exact List.mem_append.mpr (.inl hp), hpx⟩
          · right
            intro y hy
            exact (fold_visited_sub fn dd _ _).subset (hclosed y hy)
        · have hentry : ∃ l, (x, l) ∈ adjEntries fl cur := by
            rcases (fold_visited_mem fn dd _ _ x).mp hx with h2 | h2
            · exact absurd h2 hxv
            · exact h2
          left
          rcases hcov x hentry hxv with ⟨p, hp, hpx⟩
          exact ⟨p, by rw [hfq]; exact List.mem_append.mpr (.inr hp), hpx⟩
      · intro p hp hreach
        rcases List.mem_append.mp hp with hp | hp
        · exact hBnr p hp hreach
        · exact (hprop p hp).2.1 (hball _ hreach)
      · intro _
        rw [← hdd]
        exact hlt
    · rw [if_neg hlt]
      refine ⟨d, A2, B, hrest, hdA1, hdB, hball, ?_, hBnr, hBne⟩
      intro hlt2
      exact absurd (hdd ▸ hlt2) hlt

theorem cInv_terminal (fl : List Link) (c : Ident) (deg : Nat) (s : BFSState)
    (h : cInv fl c deg s) (hq : s.queue = []) :
    ∀ x, Reach fl c deg x → x ∈ s.visited := by
  obtain ⟨d, A, B, hAB, _, _, hball, hiii, _, _⟩ := h
  by_cases hd : deg ≤ d
  · intro x hx
    exact hball x (hx.mono hd)
  · push_neg at hd
    have hc : c ∈ s.visited := hball c (Reach.self fl c d)
    have hclosed : ∀ x, x ∈ s.visited → ∀ y, linked fl x y → y ∈ s.visited := by
      intro x hx y hy
      rcases hiii hd x hx with ⟨p, hp, _⟩ | hcl
      · rw [hq] at hp
        cases hp
      · exact hcl y hy
    intro x hx
    exact reach_subset_closed hc hclosed hx

/-! ### Characterising the final state -/

theorem finalState_queue_nil (fn : List Node) (fl : List Link) (c : String)
    (d : Int) (cObj : Node)
    (hfind : fn.find? (fun n => n.id = some c) = some cObj) :
    (finalState fn fl c d).queue = [] := by
  unfold finalState
  rw [hfind]
  exact bfsRun_queue_nil fn fl (clampDeg d) _ _ (le_refl _)

theorem visited_iff_reach (fn : List Node) (fl : List Link) (c : String)
    (d : Int) (cObj : Node)
    (hfind : fn.find? (fun n => n.id = some c) = some cObj) :
    ∀ x, x ∈ (finalState fn fl c d).visited ↔
      Reach fl (some c) (clampDeg d) x := by
  have hs : sInv fl (some c) (clampDeg d) (finalState fn fl c d) := by
    unfold finalState
    rw [hfind]
    exact bfsRun_inv fn fl (clampDeg d) _
      (fun s cur dd rest hq h => sInv_step fn fl (some c) (clampDeg d) s cur dd rest hq h)
      _ _ (sInv_init fl c cObj (clampDeg d))
  have hc : cInv fl (some c) (clampDeg d) (finalState fn fl c d) := by
    unfold finalState
    rw [hfind]
    exact bfsRun_inv fn fl (clampDeg d) _
      (fun s cur dd rest hq h => cInv_step fn fl (some c) (clampDeg d) s cur dd rest hq h)
      _ _ (cInv_init fl c cObj (clampDeg d))
  intro x
  constructor
  · exact fun hx => hs.2 x hx
  · exact fun hx =>
      cInv_terminal fl (some c) (clampDeg d) _ hc
        (finalState_queue_nil fn fl c d cObj hfind) x hx

theorem realB_of_exists {fn : List Node} {q : String}
    (h : ∃ n ∈ fn, n.id = some q) : realB fn (some q) = true := by
  have hsome : (fn.find? (fun n => n.id = some q)).isSome = true := by
    rw [List.find?_isSome]
    obtain ⟨n, hn, hid⟩ := h
    exact ⟨n, hn, by simpa using hid⟩
  cases hf : fn.find? (fun n => n.id = some q) with
  | none => rw [hf] at hsome; cases hsome
  | some nd =>
    exact realB_eq_true.mpr ⟨nd, hf, truthy_of_id_some (find?_id_eq hf)⟩

theorem exists_of_realB {fn : List Node} {x : Ident}
    (h : realB fn x = true) : ∃ n ∈ fn, n.id = x := by
  obtain ⟨nd, hf, _⟩ := realB_eq_true.mp h
  exact ⟨nd, List.mem_of_find?_eq_some hf, find?_id_eq hf⟩

/-- Inversion of a successful extraction: the validation passed, the
center lookup succeeded, and every response field is the corresponding
component of the final traversal state. -/
theorem extract_ok_inv (fn : List Node) (fl : List Link) (c : String) (d : Int)
    (r : SubgraphResult) (hok : extract_subgraph fn fl c d = .ok r) :
    ∃ cObj, fn.find? (fun n => n.id = some c) = some cObj ∧
      r.nodes = (finalState fn fl c d).nodes.map (fun p => p.2) ∧
      r.links = (finalState fn fl c d).links ∧
      r.center_node = c ∧
      r.degree = (if d < 1 then 1 else d) ∧
      r.total_nodes = ((finalState fn fl c d).nodes.map (fun p => p.2)).length ∧
      r.total_links = (finalState fn fl c d).links.length ∧
      r.original_nodes = fn.length ∧
      r.original_links = fl.length ∧
      fn ≠ [] ∧ fl ≠ [] := by
  by_cases hne : (fn.isEmpty || fl.isEmpty) = true
  · rw [extract_subgraph, if_pos hne] at hok
    cases hok
  · have hfn : fn ≠ [] := by
      intro hc2
      subst hc2
      simp at hne
    have hfl : fl ≠ [] := by
      intro hc2
      subst hc2
      simp at hne
    cases hf : fn.find? (fun n => n.id = some c) with
    | none =>
      rw [extract_subgraph, if_neg hne, hf] at hok
      cases hok
    | some cObj =>
      rw [extract_subgraph, if_neg hne, hf] at hok
      have hr := (Except.ok.injEq _ _).mp hok
      refine ⟨cObj, rfl, ?_, ?_, ?_, ?_, ?_, ?_, ?_, ?_, hfn, hfl⟩ <;>
        rw [← hr]

/-! ### Claim C5: absent center yields NotFound -/

/-- C5: for every non-empty graph and every center identifier matching no
node identifier under exact string equality, extraction fails with
`NotFound` (mapped to HTTP 404) and never returns a successful result. -/
theorem C5_theorem (fn : List Node) (fl : List Link) (c : String) (d : Int)
    (h1 : fn ≠ []) (h2 : fl ≠ []) (h3 : ∀ n ∈ fn, n.id ≠ some c) :
    extract_subgraph fn fl c d = .error (.NotFound c) ∧
      httpStatus (.NotFound c) = 404 := by
  have hne : ¬ (fn.isEmpty || fl.isEmpty) = true := by
    simp [List.isEmpty_iff, h1, h2]
  have hfind : fn.find? (fun n => n.id = some c) = none := by
    rw [List.find?_eq_none]
    intro n hn
    simpa using h3 n hn
  rw [extract_subgraph, if_neg hne, hfind]
  exact ⟨rfl, rfl⟩

/-- C5 witness: a one-node graph queried with an absent center. -/
theorem C5_witness :
    extract_subgraph [{ id := some "A", attrs := [] }]
        [{ source := some "A", target := some "A", attrs := [] }] "Z" 1
      = .error (.NotFound "Z") ∧ httpStatus (.NotFound "Z") = 404 :=
  C5_theorem _ _ _ _ (by decide) (by decide) (by decide)

/-! ### Claim C6: empty nodes or links yields InvalidGraph -/

/-- C6: whenever `full_nodes` or `full_links` is empty, extraction fails
with `InvalidGraph` (mapped to HTTP 400) and no subgraph is produced. -/
theorem C6_theorem (fn : List Node) (fl : List Link) (c : String) (d : Int)
    (h : fn = [] ∨ fl = []) :
    extract_subgraph fn fl c d = .error .InvalidGraph ∧
      httpStatus .InvalidGraph = 400 := by
  rcases h with rfl | rfl
  · exact ⟨by rw [extract_subgraph, if_pos (by simp)], rfl⟩
  · exact ⟨by rw [extract_subgraph, if_pos (by simp)], rfl⟩

/-- C6 witness: an empty node list. -/
theorem C6_witness :
    extract_subgraph [] [{ source := some "A", target := some "B", attrs := [] }]
        "A" 1 = .error .InvalidGraph ∧ httpStatus .InvalidGraph = 400 :=
  C6_theorem _ _ _ _ (.inl rfl)

/-! ### Claim C7: degrees below 1 are clamped to 1 -/

/-- C7: extraction with `degree = 0` or any negative degree is identical
(as a whole response, including the echoed clamped degree) to extraction
with `degree = 1`: values below 1 are clamped, never rejected. -/
theorem C7_theorem (fn : List Node) (fl : List Link) (c : String) (d : Int)
    (hd : d < 1) :
    extract_subgraph fn fl c d = extract_subgraph fn fl c 1 := by
  have h1 : clampDeg d = clampDeg 1 := by simp [clampDeg, hd]
  have h2 : (if d < 1 then (1 : Int) else d) = (if (1 : Int) < 1 then 1 else 1) := by
    simp [hd]
  unfold extract_subgraph finalState
  rw [h1, h2]

/-- C7 witness: degree 0 and degree -3 behave as degree 1 on a concrete
two-node graph. -/
theorem C7_witness :
    extract_subgraph [{ id := some "A", attrs := [] }, { id := some "B", attrs := [] }]
        [{ source := some "A", target := some "B", attrs := [] }] "A" 0
      = extract_subgraph [{ id := some "A", attrs := [] }, { id := some "B", attrs := [] }]
        [{ source := some "A", target := some "B", attrs := [] }] "A" 1 :=
  C7_theorem _ _ _ _ (by decide)

/-! ### Claim C9: malformed link records are absorbed, not reported -/

/-- C9 counterexample: an input containing a link with no `source` field
(the `dict.get` result is `None`) passes through extraction with a
successful subgraph response — no `InternalError`-style failure is
raised, refuting the claim that such inputs are reported as structured
failures. -/
theorem C9_counterexample :
    (∃ l ∈ [({ source := none, target := some "A", attrs := [] } : Link)],
        l.source = none ∨ l.target = none) ∧
      extract_subgraph [{ id := some "A", attrs := [] }]
          [{ source := none, target := some "A", attrs := [] }] "A" 1
        = .ok { nodes := [{ id := some "A", attrs := [] }], links := [],
                center_node := "A", degree := 1, total_nodes := 1,
                total_links := 0, original_nodes := 1, original_links := 1 } :=
  ⟨by decide, by rfl⟩

/-- C9 (amended): an input containing a malformed link record (missing
`source` or `target`) does not make extraction fail: whenever validation
passes and the center is found, extraction still returns a successful
subgraph; the missing endpoint is treated as an ordinary unmatched
identifier. -/
theorem C9_theorem (fn : List Node) (fl : List Link) (c : String) (d : Int)
    (cObj : Node) (h1 : fn ≠ []) (h2 : fl ≠ [])
    (hfind : fn.find? (fun n => n.id = some c) = some cObj)
    (_hmal : ∃ l ∈ fl, l.source = none ∨ l.target = none) :
    ∃ r, extract_subgraph fn fl c d = .ok r := by
  have hne : ¬ (fn.isEmpty || fl.isEmpty) = true := by
    simp [List.isEmpty_iff, h1, h2]
  refine ⟨{ nodes := (finalState fn fl c d).nodes.map (fun p => p.2)
            links := (finalState fn fl c d).links
            center_node := c
            degree := if d < 1 then 1 else d
            total_nodes := ((finalState fn fl c d).nodes.map (fun p => p.2)).length
            total_links := (finalState fn fl c d).links.length
            original_nodes := fn.length
            original_links := fl.length }, ?_⟩
  rw [extract_subgraph, if_neg hne, hfind]

/-- C9 witness: the one-node graph with a sourceless link extracts
successfully. -/
theorem C9_witness :
    ∃ r, extract_subgraph [{ id := some "A", attrs := [] }]
        [{ source := none, target := some "A", attrs := [] }] "A" 1 = .ok r :=
  C9_theorem _ _ _ _ { id := some "A", attrs := [] }
    (by decide) (by decide) (by rfl) (by decide)

/-! ### Claim C10: unmatched link endpoints traverse but are never output -/

/-- C10: a link endpoint matching no node object still leaves extraction
successful: every returned node object comes from `full_nodes` (so an
unmatched identifier never contributes a node entry), while the visited
set — which drives hop consumption — is exactly bounded reachability over
the link list, treating unmatched identifiers like any other node. -/
theorem C10_theorem (fn : List Node) (fl : List Link) (c : String) (d : Int)
    (cObj : Node) (h1 : fn ≠ []) (h2 : fl ≠ [])
    (hfind : fn.find? (fun n => n.id = some c) = some cObj) :
    ∃ r, extract_subgraph fn fl c d = .ok r ∧
      (∀ n ∈ r.nodes, n ∈ fn) ∧
      (∀ x : Ident, (∀ n ∈ fn, n.id ≠ x) → ¬ ∃ n ∈ r.nodes, n.id = x) ∧
      (∀ x, x ∈ (finalState fn fl c d).visited ↔
        Reach fl (some c) (clampDeg d) x) := by
  have hne : ¬ (fn.isEmpty || fl.isEmpty) = true := by
    simp [List.isEmpty_iff, h1, h2]
  have hok : extract_subgraph fn fl c d
      = .ok { nodes := (finalState fn fl c d).nodes.map (fun p => p.2)
              links := (finalState fn fl c d).links
              center_node := c
              degree := if d < 1 then 1 else d
              total_nodes := ((finalState fn fl c d).nodes.map (fun p => p.2)).length
              total_links := (finalState fn fl c d).links.length
              original_nodes := fn.length
              original_links := fl.length } := by
    rw [extract_subgraph, if_neg hne, hfind]
  obtain ⟨_, _, hNV, _⟩ := bfsInv_final fn fl c d cObj hfind
  have hmem : ∀ n ∈ (finalState fn fl c d).nodes.map (fun p => p.2), n ∈ fn := by
    intro n hn
    obtain ⟨p, hp, hpn⟩ := List.mem_map.mp hn
    rw [← hpn]
    exact List.mem_of_find?_eq_some (hNV p hp)
  refine ⟨_, hok, hmem, ?_, visited_iff_reach fn fl c d cObj hfind⟩
  rintro x hx ⟨n, hn, hid⟩
  exact hx n (hmem n hn) hid

/-- C10 witness: graph with nodes `A`, `B` and links `A-X`, `X-B` where
`X` matches no node; extraction succeeds, `X` contributes no node entry,
and the visited set follows the hop relation through `X`. -/
theorem C10_witness :
    ∃ r, extract_subgraph
        [{ id := some "A", attrs := [] }, { id := some "B", attrs := [] }]
        [{ source := some "A", target := some "X", attrs := [] },
          { source := some "X", target := some "B", attrs := [] }] "A" 2 = .ok r ∧
      (∀ n ∈ r.nodes,
        n ∈ [{ id := some "A", attrs := [] }, { id := some "B", attrs := [] }]) ∧
      (∀ x : Ident,
        (∀ n ∈ [({ id := some "A", attrs := [] } : Node), { id := some "B", attrs := [] }],
          n.id ≠ x) → ¬ ∃ n ∈ r.nodes, n.id = x) ∧
      (∀ x, x ∈ (finalState
          [{ id := some "A", attrs := [] }, { id := some "B", attrs := [] }]
          [{ source := some "A", target := some "X", attrs := [] },
            { source := some "X", target := some "B", attrs := [] }] "A" 2).visited ↔
        Reach [{ source := some "A", target := some "X", attrs := [] },
            { source := some "X", target := some "B", attrs := [] }] (some "A")
          (clampDeg 2) x) :=
  C10_theorem _ _ _ _ { id := some "A", attrs := [] }
    (by decide) (by decide) (by rfl)

/-! ### Claim C1: link inclusion versus the visited set -/

/-- C1 counterexample: triangle `A-B, A-C, B-C` with center `A` and
degree 1.  `B` and `C` both end up in the visited set (and in the
returned nodes), yet the link `B-C` is not in the returned link list —
refuting the claimed "if and only if". -/
theorem C1_counterexample :
    extract_subgraph
        [{ id := some "A", attrs := [] }, { id := some "B", attrs := [] },
          { id := some "C", attrs := [] }]
        [{ source := some "A", target := some "B", attrs := [] },
          { source := some "A", target := some "C", attrs := [] },
          { source := some "B", target := some "C", attrs := [] }] "A" 1
      = .ok { nodes := [{ id := some "A", attrs := [] }, { id := some "B", attrs := [] },
                { id := some "C", attrs := [] }]
              links := [{ source := some "A", target := some "B", attrs := [] },
                { source := some "A", target := some "C", attrs := [] }]
              center_node := "A", degree := 1, total_nodes := 3, total_links := 2,
              original_nodes := 3, original_links := 3 } ∧
      some "B" ∈ (finalState
        [{ id := some "A", attrs := [] }, { id := some "B", attrs := [] },
          { id := some "C", attrs := [] }]
        [{ source := some "A", target := some "B", attrs := [] },
          { source := some "A", target := some "C", attrs := [] },
          { source := some "B", target := some "C", attrs := [] }] "A" 1).visited ∧
      some "C" ∈ (finalState
        [{ id := some "A", attrs := [] }, { id := some "B", attrs := [] },
          { id := some "C", attrs := [] }]
        [{ source := some "A", target := some "B", attrs := [] },
          { source := some "A", target := some "C", attrs := [] },
          { source := some "B", target := some "C", attrs := [] }] "A" 1).visited ∧
      ({ source := some "B", target := some "C", attrs := [] } : Link)
        ∉ [({ source := some "A", target := some "B", attrs := [] } : Link),
            { source := some "A", target := some "C", attrs := [] }] :=
  ⟨by rfl, by decide, by decide, by decide⟩

/-- C1 (amended): a link appears in the returned link list only if both
of its endpoints are in the BFS visited set; the converse direction of
the original claim fails (see the counterexample). -/
theorem C1_theorem (fn : List Node) (fl : List Link) (c : String) (d : Int)
    (r : SubgraphResult) (hok : extract_subgraph fn fl c d = .ok r) :
    ∀ l ∈ r.links, l.source ∈ (finalState fn fl c d).visited ∧
      l.target ∈ (finalState fn fl c d).visited := by
  obtain ⟨cObj, hfind, _, hlinks, _⟩ := extract_ok_inv fn fl c d r hok
  obtain ⟨_, _, _, hL, _⟩ := bfsInv_final fn fl c d cObj hfind
  intro l hl
  rw [hlinks] at hl
  exact ⟨(hL l hl).2.1, (hL l hl).2.2⟩

/-- C1 witness: the accepted link `A-B` of the triangle extraction at
degree 1 has both endpoints in the visited set. -/
theorem C1_witness :
    ({ source := some "A", target := some "B", attrs := [] } : Link).source
        ∈ (finalState
          [{ id := some "A", attrs := [] }, { id := some "B", attrs := [] },
            { id := some "C", attrs := [] }]
          [{ source := some "A", target := some "B", attrs := [] },
            { source := some "A", target := some "C", attrs := [] },
            { source := some "B", target := some "C", attrs := [] }] "A" 1).visited ∧
      ({ source := some "A", target := some "B", attrs := [] } : Link).target
        ∈ (finalState
          [{ id := some "A", attrs := [] }, { id := some "B", attrs := [] },
            { id := some "C", attrs := [] }]
          [{ source := some "A", target := some "B", attrs := [] },
            { source := some "A", target := some "C", attrs := [] },
            { source := some "B", target := some "C", attrs := [] }] "A" 1).visited :=
  C1_theorem
    [{ id := some "A", attrs := [] }, { id := some "B", attrs := [] },
      { id := some "C", attrs := [] }]
    [{ source := some "A", target := some "B", attrs := [] },
      { source := some "A", target := some "C", attrs := [] },
      { source := some "B", target := some "C", attrs := [] }] "A" 1
    { nodes := [{ id := some "A", attrs := [] }, { id := some "B", attrs := [] }, { id := some "C", attrs := [] }], links := [{ source := some "A", target := some "B", attrs := [] }, { source := some "A", target := some "C", attrs := [] }], center_node := "A", degree := 1, total_nodes := 3, total_links := 2, original_nodes := 3, original_links := 3 }
    (by rfl) { source := some "A", target := some "B", attrs := [] } (by decide)

/-! ### Claim C2: the closure invariant -/

/-- C2 counterexample: graph with nodes `A`, `B` and links `A-X`, `X-B`
where `X` matches no node.  At degree 2 the returned link list contains
`A-X`, whose target identifier `X` is not among the returned node
identifiers — refuting the unconditional closure invariant. -/
theorem C2_counterexample :
    extract_subgraph
        [{ id := some "A", attrs := [] }, { id := some "B", attrs := [] }]
        [{ source := some "A", target := some "X", attrs := [] },
          { source := some "X", target := some "B", attrs := [] }] "A" 2
      = .ok { nodes := [{ id := some "A", attrs := [] }, { id := some "B", attrs := [] }]
              links := [{ source := some "A", target := some "X", attrs := [] },
                { source := some "X", target := some "B", attrs := [] }]
              center_node := "A", degree := 2, total_nodes := 2, total_links := 2,
              original_nodes := 2, original_links := 2 } ∧
      ¬ ∃ n ∈ [({ id := some "A", attrs := [] } : Node), { id := some "B", attrs := [] }],
        n.id = some "X" :=
  ⟨by rfl, by decide⟩

/-- C2 (amended): for graphs in which every link endpoint is a string
identifier carried by some node of `full_nodes`, every returned link has
both endpoint identifiers among the returned node identifiers. -/
theorem C2_theorem (fn : List Node) (fl : List Link) (c : String) (d : Int)
    (r : SubgraphResult)
    (hwf : ∀ l ∈ fl, (∃ q, l.source = some q ∧ ∃ n ∈ fn, n.id = some q) ∧
      (∃ q, l.target = some q ∧ ∃ n ∈ fn, n.id = some q))
    (hok : extract_subgraph fn fl c d = .ok r) :
    ∀ l ∈ r.links, (∃ n ∈ r.nodes, n.id = l.source) ∧
      (∃ n ∈ r.nodes, n.id = l.target) := by
  obtain ⟨cObj, hfind, hnodes, hlinks, _⟩ := extract_ok_inv fn fl c d r hok
  obtain ⟨_, hN, hNV, hL, _⟩ := bfsInv_final fn fl c d cObj hfind
  intro l hl
  rw [hlinks] at hl
  obtain ⟨hlfl, hsv, htv⟩ := hL l hl
  obtain ⟨⟨qs, hqs, hns⟩, qt, hqt, hnt⟩ := hwf l hlfl
  constructor
  · have hreal : realB fn l.source = true := by
      rw [hqs]
      exact realB_of_exists hns
    obtain ⟨p, hp, hpx⟩ := (hN l.source).mpr ⟨hsv, hreal⟩
    refine ⟨p.2, ?_, ?_⟩
    · rw [hnodes]
      exact List.mem_map.mpr ⟨p, hp, rfl⟩
    · rw [find?_id_eq (hNV p hp), hpx]
  · have hreal : realB fn l.target = true := by
      rw [hqt]
      exact realB_of_exists hnt
    obtain ⟨p, hp, hpx⟩ := (hN l.target).mpr ⟨htv, hreal⟩
    refine ⟨p.2, ?_, ?_⟩
    · rw [hnodes]
      exact List.mem_map.mpr ⟨p, hp, rfl⟩
    · rw [find?_id_eq (hNV p hp), hpx]

/-- C2 witness: the accepted link of a well-formed two-node graph has
both endpoint identifiers among the returned nodes. -/
theorem C2_witness :
    (∃ n ∈ ({ nodes := [{ id := some "A", attrs := [] }, { id := some "B", attrs := [] }], links := [{ source := some "A", target := some "B", attrs := [] }], center_node := "A", degree := 1, total_nodes := 2, total_links := 1, original_nodes := 2, original_links := 1 } : SubgraphResult).nodes,
        n.id = ({ source := some "A", target := some "B", attrs := [] } : Link).source) ∧
      (∃ n ∈ ({ nodes := [{ id := some "A", attrs := [] }, { id := some "B", attrs := [] }], links := [{ source := some "A", target := some "B", attrs := [] }], center_node := "A", degree := 1, total_nodes := 2, total_links := 1, original_nodes := 2, original_links := 1 } : SubgraphResult).nodes,
        n.id = ({ source := some "A", target := some "B", attrs := [] } : Link).target) :=
  C2_theorem
    [{ id := some "A", attrs := [] }, { id := some "B", attrs := [] }]
    [{ source := some "A", target := some "B", attrs := [] }] "A" 1
    { nodes := [{ id := some "A", attrs := [] }, { id := some "B", attrs := [] }], links := [{ source := some "A", target := some "B", attrs := [] }], center_node := "A", degree := 1, total_nodes := 2, total_links := 1, original_nodes := 2, original_links := 1 }
    (by decide) (by rfl) { source := some "A", target := some "B", attrs := [] }
    (by decide)

/-! ### Claim C3: the returned nodes are exactly the bounded-reachable ones -/

/-- C3: for every graph and every degree at least 1, a string identifier
has a node in the response exactly when it is reachable from the center
within the degree bound in the undirected adjacency relation induced by
`full_links` and it is carried by some node of `full_nodes`; in
particular disconnected components are excluded. -/
theorem C3_theorem (fn : List Node) (fl : List Link) (c : String) (d : Int)
    (hd : 1 ≤ d) (r : SubgraphResult)
    (hok : extract_subgraph fn fl c d = .ok r) :
    ∀ q : String, (∃ n ∈ r.nodes, n.id = some q) ↔
      (Reach fl (some c) d.toNat (some q) ∧ ∃ n ∈ fn, n.id = some q) := by
  obtain ⟨cObj, hfind, hnodes, _⟩ := extract_ok_inv fn fl c d r hok
  obtain ⟨_, hN, hNV, _⟩ := bfsInv_final fn fl c d cObj hfind
  have hclamp : clampDeg d = d.toNat := by
    rw [clampDeg, if_neg (by omega)]
  have hvr := visited_iff_reach fn fl c d cObj hfind
  intro q
  constructor
  · rintro ⟨n, hn, hid⟩
    rw [hnodes] at hn
    obtain ⟨p, hp, hpn⟩ := List.mem_map.mp hn
    have hpid : p.2.id = p.1 := find?_id_eq (hNV p hp)
    have hp1 : p.1 = some q := by rw [← hpid, hpn, hid]
    obtain ⟨hv, hreal⟩ := (hN (some q)).mp ⟨p, hp, hp1⟩
    refine ⟨?_, exists_of_realB hreal⟩
    rw [← hclamp]
    exact (hvr _).mp hv
  · rintro ⟨hreach, hex⟩
    have hreal : realB fn (some q) = true := realB_of_exists hex
    have hv : (some q) ∈ (finalState fn fl c d).visited := by
      refine (hvr _).mpr ?_
      rw [hclamp]
      exact hreach
    obtain ⟨p, hp, hpx⟩ := (hN (some q)).mpr ⟨hv, hreal⟩
    refine ⟨p.2, ?_, ?_⟩
    · rw [hnodes]
      exact List.mem_map.mpr ⟨p, hp, rfl⟩
    · rw [find?_id_eq (hNV p hp), hpx]

/-- C3 witness: in the specification's path scenario `A-B, B-C, C-D`
with center `A` and degree 2, the identifier `C` is returned exactly
because it is reachable in two hops and carried by a node. -/
theorem C3_witness :
    (∃ n ∈ ({ nodes := [{ id := some "A", attrs := [] }, { id := some "B", attrs := [] }, { id := some "C", attrs := [] }], links := [{ source := some "A", target := some "B", attrs := [] }, { source := some "B", target := some "C", attrs := [] }], center_node := "A", degree := 2, total_nodes := 3, total_links := 2, original_nodes := 4, original_links := 3 } : SubgraphResult).nodes,
        n.id = some "C") ↔
      (Reach [{ source := some "A", target := some "B", attrs := [] },
          { source := some "B", target := some "C", attrs := [] },
          { source := some "C", target := some "D", attrs := [] }] (some "A")
          ((2 : Int).toNat) (some "C") ∧
        ∃ n ∈ [({ id := some "A", attrs := [] } : Node), { id := some "B", attrs := [] },
            { id := some "C", attrs := [] }, { id := some "D", attrs := [] }],
          n.id = some "C") :=
  C3_theorem
    [{ id := some "A", attrs := [] }, { id := some "B", attrs := [] },
      { id := some "C", attrs := [] }, { id := some "D", attrs := [] }]
    [{ source := some "A", target := some "B", attrs := [] },
      { source := some "B", target := some "C", attrs := [] },
      { source := some "C", target := some "D", attrs := [] }] "A" 2
    (by decide) _ (by rfl) "C"

/-! ### Claim C4: exact-duplicate suppression and parallel edges -/

/-- C4 counterexample: parallel links `B-C` with different attributes in
a triangle-shaped graph extracted from center `A` at degree 1: both
endpoints `B` and `C` are in the returned node list, yet neither parallel
link is retained (both endpoints sit at the hop bound and are never
expanded) — refuting "both are retained when both endpoints are
included". -/
theorem C4_counterexample :
    extract_subgraph
        [{ id := some "A", attrs := [] }, { id := some "B", attrs := [] },
          { id := some "C", attrs := [] }]
        [{ source := some "A", target := some "B", attrs := [] },
          { source := some "A", target := some "C", attrs := [] },
          { source := some "B", target := some "C", attrs := [("k", "1")] },
          { source := some "B", target := some "C", attrs := [("k", "2")] }] "A" 1
      = .ok { nodes := [{ id := some "A", attrs := [] }, { id := some "B", attrs := [] }, { id := some "C", attrs := [] }], links := [{ source := some "A", target := some "B", attrs := [] }, { source := some "A", target := some "C", attrs := [] }], center_node := "A", degree := 1, total_nodes := 3, total_links := 2, original_nodes := 3, original_links := 4 } ∧
      ({ source := some "B", target := some "C", attrs := [("k", "1")] } : Link)
        ∉ [({ source := some "A", target := some "B", attrs := [] } : Link),
            { source := some "A", target := some "C", attrs := [] }] ∧
      ({ source := some "B", target := some "C", attrs := [("k", "2")] } : Link)
        ∉ [({ source := some "A", target := some "B", attrs := [] } : Link),
            { source := some "A", target := some "C", attrs := [] }] :=
  ⟨by rfl, by decide, by decide⟩

theorem par_pres (fn : List Node) (fl : List Link) (deg : Nat)
    (l1 l2 : Link) (h1 : l1 ∈ fl) (h2 : l2 ∈ fl)
    (hs : l1.source = l2.source) (ht : l1.target = l2.target)
    (s : BFSState) (cur : Ident) (dd : Nat) (rest : List (Ident × Nat))
    (_hq : s.queue = (cur, dd) :: rest) (h : l1 ∈ s.links ↔ l2 ∈ s.links) :
    (l1 ∈ (if dd < deg then expand fn fl dd cur { s with queue := rest }
        else { s with queue := rest }).links ↔
      l2 ∈ (if dd < deg then expand fn fl dd cur { s with queue := rest }
        else { s with queue := rest }).links) := by
  by_cases hlt : dd < deg
  · rw [if_pos hlt]
    unfold expand
    rw [fold_links_mem, fold_links_mem]
    have hadj : ∀ w, (w, l1) ∈ adjEntries fl cur ↔ (w, l2) ∈ adjEntries fl cur := by
      intro w
      rw [mem_adjEntries, mem_adjEntries, hs, ht]
      simp [h1, h2]
    constructor
    · rintro (ha | ⟨w, hw, hg⟩)
      · exact .inl (h.mp ha)
      · exact .inr ⟨w, (hadj w).mp hw, hg⟩
    · rintro (ha | ⟨w, hw, hg⟩)
      · exact .inl (h.mpr ha)
      · exact .inr ⟨w, (hadj w).mpr hw, hg⟩
  · rw [if_neg hlt]
    exact h

/-- C4 (amended): the returned link list never contains an exact
duplicate twice (it is duplicate-free), and two parallel links of the
full graph — same `source` and `target`, possibly different attributes —
are treated identically: one is retained exactly when the other is. -/
theorem C4_theorem (fn : List Node) (fl : List Link) (c : String) (d : Int)
    (r : SubgraphResult) (hok : extract_subgraph fn fl c d = .ok r)
    (l1 l2 : Link) (h1 : l1 ∈ fl) (h2 : l2 ∈ fl)
    (hs : l1.source = l2.source) (ht : l1.target = l2.target) :
    r.links.Nodup ∧ (l1 ∈ r.links ↔ l2 ∈ r.links) := by
  obtain ⟨cObj, hfind, _, hlinks, _⟩ := extract_ok_inv fn fl c d r hok
  obtain ⟨_, _, _, _, hND, _⟩ := bfsInv_final fn fl c d cObj hfind
  constructor
  · rw [hlinks]
    exact hND
  · rw [hlinks]
    unfold finalState
    rw [hfind]
    exact bfsRun_inv fn fl (clampDeg d) (fun s => l1 ∈ s.links ↔ l2 ∈ s.links)
      (fun s cur dd rest hq hinv =>
        par_pres fn fl (clampDeg d) l1 l2 h1 h2 hs ht s cur dd rest hq hinv)
      _ _ (by simp [initState])

/-- C4 witness: the parallel-edge graph extracted at degree 2, where both
parallel links are retained. -/
theorem C4_witness :
    ({ nodes := [{ id := some "A", attrs := [] }, { id := some "B", attrs := [] }, { id := some "C", attrs := [] }], links := [{ source := some "A", target := some "B", attrs := [] }, { source := some "A", target := some "C", attrs := [] }, { source := some "B", target := some "C", attrs := [("k", "1")] }, { source := some "B", target := some "C", attrs := [("k", "2")] }], center_node := "A", degree := 2, total_nodes := 3, total_links := 4, original_nodes := 3, original_links := 4 } : SubgraphResult).links.Nodup ∧
      (({ source := some "B", target := some "C", attrs := [("k", "1")] } : Link)
          ∈ ({ nodes := [{ id := some "A", attrs := [] }, { id := some "B", attrs := [] }, { id := some "C", attrs := [] }], links := [{ source := some "A", target := some "B", attrs := [] }, { source := some "A", target := some "C", attrs := [] }, { source := some "B", target := some "C", attrs := [("k", "1")] }, { source := some "B", target := some "C", attrs := [("k", "2")] }], center_node := "A", degree := 2, total_nodes := 3, total_links := 4, original_nodes := 3, original_links := 4 } : SubgraphResult).links ↔
        ({ source := some "B", target := some "C", attrs := [("k", "2")] } : Link)
          ∈ ({ nodes := [{ id := some "A", attrs := [] }, { id := some "B", attrs := [] }, { id := some "C", attrs := [] }], links := [{ source := some "A", target := some "B", attrs := [] }, { source := some "A", target := some "C", attrs := [] }, { source := some "B", target := some "C", attrs := [("k", "1")] }, { source := some "B", target := some "C", attrs := [("k", "2")] }], center_node := "A", degree := 2, total_nodes := 3, total_links := 4, original_nodes := 3, original_links := 4 } : SubgraphResult).links) :=
  C4_theorem
    [{ id := some "A", attrs := [] }, { id := some "B", attrs := [] },
      { id := some "C", attrs := [] }]
    [{ source := some "A", target := some "B", attrs := [] },
      { source := some "A", target := some "C", attrs := [] },
      { source := some "B", target := some "C", attrs := [("k", "1")] },
      { source := some "B", target := some "C", attrs := [("k", "2")] }] "A" 2 _
    (by rfl) _ _ (by decide) (by decide) (by decide) (by decide)

/-! ### Claim C8: assembly order and determinism -/

/-- C8: the returned node list starts with the center object and lists
node identifiers in first-visited order (a subsequence of the visited
list, which is recorded in discovery order); the returned link list is
the traversal's acceptance-order list; the counts match the lists; and
extraction is deterministic — two successful runs on identical inputs
agree exactly. -/
theorem C8_theorem (fn : List Node) (fl : List Link) (c : String) (d : Int)
    (cObj : Node) (r : SubgraphResult)
    (hfind : fn.find? (fun n => n.id = some c) = some cObj)
    (hok : extract_subgraph fn fl c d = .ok r) :
    r.nodes.head? = some cObj ∧
      (r.nodes.map Node.id).Sublist (finalState fn fl c d).visited ∧
      r.links = (finalState fn fl c d).links ∧
      r.total_nodes = r.nodes.length ∧
      r.total_links = r.links.length ∧
      (∀ r2, extract_subgraph fn fl c d = .ok r2 → r2 = r) := by
  obtain ⟨cObj2, hfind2, hnodes, hlinks, _, _, htn, htl, _⟩ :=
    extract_ok_inv fn fl c d r hok
  rw [hfind] at hfind2
  have hc2 : cObj = cObj2 := by
    injection hfind2
  subst hc2
  obtain ⟨_, _, hNV, _, _, hO, hH⟩ := bfsInv_final fn fl c d cObj hfind
  obtain ⟨tail, hcons⟩ := hH
  refine ⟨?_, ?_, hlinks, ?_, ?_, ?_⟩
  · rw [hnodes, hcons]
    rfl
  · have hmapeq : r.nodes.map Node.id
        = (finalState fn fl c d).nodes.map (fun p => p.1) := by
      rw [hnodes, List.map_map]
      exact List.map_congr_left (fun p hp => find?_id_eq (hNV p hp))
    rw [hmapeq]
    exact hO
  · rw [htn, hnodes]
  · rw [htl, hlinks]
  · intro r2 h2
    rw [hok] at h2
    injection h2 with h3
    exact h3.symm

/-- C8 witness: the path scenario at degree 1, where the center object
heads the node list and the counts match. -/
theorem C8_witness :
    ({ nodes := [{ id := some "A", attrs := [] }, { id := some "B", attrs := [] }], links := [{ source := some "A", target := some "B", attrs := [] }], center_node := "A", degree := 1, total_nodes := 2, total_links := 1, original_nodes := 4, original_links := 3 } : SubgraphResult).nodes.head?
        = some { id := some "A", attrs := [] } ∧
      (({ nodes := [{ id := some "A", attrs := [] }, { id := some "B", attrs := [] }], links := [{ source := some "A", target := some "B", attrs := [] }], center_node := "A", degree := 1, total_nodes := 2, total_links := 1, original_nodes := 4, original_links := 3 } : SubgraphResult).nodes.map Node.id).Sublist
        (finalState
          [{ id := some "A", attrs := [] }, { id := some "B", attrs := [] },
            { id := some "C", attrs := [] }, { id := some "D", attrs := [] }]
          [{ source := some "A", target := some "B", attrs := [] },
            { source := some "B", target := some "C", attrs := [] },
            { source := some "C", target := some "D", attrs := [] }] "A" 1).visited ∧
      ({ nodes := [{ id := some "A", attrs := [] }, { id := some "B", attrs := [] }], links := [{ source := some "A", target := some "B", attrs := [] }], center_node := "A", degree := 1, total_nodes := 2, total_links := 1, original_nodes := 4, original_links := 3 } : SubgraphResult).links
        = (finalState
          [{ id := some "A", attrs := [] }, { id := some "B", attrs := [] },
            { id := some "C", attrs := [] }, { id := some "D", attrs := [] }]
          [{ source := some "A", target := some "B", attrs := [] },
            { source := some "B", target := some "C", attrs := [] },
            { source := some "C", target := some "D", attrs := [] }] "A" 1).links ∧
      ({ nodes := [{ id := some "A", attrs := [] }, { id := some "B", attrs := [] }], links := [{ source := some "A", target := some "B", attrs := [] }], center_node := "A", degree := 1, total_nodes := 2, total_links := 1, original_nodes := 4, original_links := 3 } : SubgraphResult).total_nodes
        = ({ nodes := [{ id := some "A", attrs := [] }, { id := some "B", attrs := [] }], links := [{ source := some "A", target := some "B", attrs := [] }], center_node := "A", degree := 1, total_nodes := 2, total_links := 1, original_nodes := 4, original_links := 3 } : SubgraphResult).nodes.length ∧
      ({ nodes := [{ id := some "A", attrs := [] }, { id := some "B", attrs := [] }], links := [{ source := some "A", target := some "B", attrs := [] }], center_node := "A", degree := 1, total_nodes := 2, total_links := 1, original_nodes := 4, original_links := 3 } : SubgraphResult).total_links
        = ({ nodes := [{ id := some "A", attrs := [] }, { id := some "B", attrs := [] }], links := [{ source := some "A", target := some "B", attrs := [] }], center_node := "A", degree := 1, total_nodes := 2, total_links := 1, original_nodes := 4, original_links := 3 } : SubgraphResult).links.length ∧
      (∀ r2, extract_subgraph
          [{ id := some "A", attrs := [] }, { id := some "B", attrs := [] },
            { id := some "C", attrs := [] }, { id := some "D", attrs := [] }]
          [{ source := some "A", target := some "B", attrs := [] },
            { source := some "B", target := some "C", attrs := [] },
            { source := some "C", target := some "D", attrs := [] }] "A" 1 = .ok r2 →
        r2 = { nodes := [{ id := some "A", attrs := [] }, { id := some "B", attrs := [] }], links := [{ source := some "A", target := some "B", attrs := [] }], center_node := "A", degree := 1, total_nodes := 2, total_links := 1, original_nodes := 4, original_links := 3 }) :=
  C8_theorem
    [{ id := some "A", attrs := [] }, { id := some "B", attrs := [] },
      { id := some "C", attrs := [] }, { id := some "D", attrs := [] }]
    [{ source := some "A", target := some "B", attrs := [] },
      { source := some "B", target := some "C", attrs := [] },
      { source := some "C", target := some "D", attrs := [] }] "A" 1
    { id := some "A", attrs := [] } _ (by rfl) (by rfl)
